import Mathlib

/-!
# Verification development for `controllers/vault/vault.go`

A shallow embedding of the secret provisioner.

* Go values of type `interface{}` are the inductive `Value`; a
  `map[string]interface{}` is an association list `GoMap` (lookup of a missing
  key yields the zero value `Value.nil`, assignment replaces the entry).  The
  keys of a Go map are distinct; no definition below relies on it.
* A Go call either returns, panics (nil dereference, failed unchecked type
  assertion) or terminates the process (`log.Fatal()...Msg(..)` of zerolog calls
  `os.Exit(1)`); this is the type `Outcome`.
* The `Vaulter` interface is a record of state-passing methods over a world
  state `σ`.  `CreateDataInVault` and `InitVault` are generic in it and record
  the interface calls they issue, in order.
* `*AcmeVault` implements the interface on top of the third-party client
  (`Client`), whose requests are appended to the `log` of the `World`.
  `InitVaultClient`, which only builds the client, is not modelled.
* Log lines are not modelled (only the process exit caused by a fatal event
  that is sent with `Msg`).
* Secrets are passed by value: `hydrateNewSecretsStruct`, which mutates the
  caller's data in place, returns the mutated list; the other interface methods
  are taken not to mutate their arguments (those of `*AcmeVault` do not).
  Entries of `[]*Secret` are taken to be non-nil.
* The types `Secret`, `secretMap`, `VaultConfig` and the table built by
  `initSecretMap()` are declared outside the file under study: the records
  below have the fields the code uses, and the table is a parameter.
-/

namespace Vault

/-! ## Data model -/

/-- Go `error` values, represented by their message. -/
abbrev Err := String

/-- Dynamic values held in an `interface{}`. -/
inductive Value where
  | nil : Value
  | str : String → Value
  | map : List (String × Value) → Value
  | other : Nat → Value

/-- Go `map[string]interface{}`. -/
abbrev GoMap := List (String × Value)

/-- Go `m[k]`: the stored value, or the zero value of `interface{}`. -/
def GoMap.get (m : GoMap) (k : String) : Value :=
  (m.lookup k).getD Value.nil

/-- Go `m[k] = v`. -/
def GoMap.set (m : GoMap) (k : String) (v : Value) : GoMap :=
  if (m.lookup k).isSome then m.map (fun e => if e.1 == k then (e.1, v) else e)
  else m ++ [(k, v)]

/-- Keys visited by `for key := range m`. -/
def GoMap.keys (m : GoMap) : List String :=
  m.map Prod.fst

/-- One key group of a secret: a storage path and its field mapping. -/
structure KV where
  Path : String
  Data : GoMap

/-- Go `Secret`: an engine name and its key groups. -/
structure Secret where
  Engine : String
  Keys : List KV

/-- Go `secretMap`: where the real value of a field is read from. -/
structure secretMap where
  path : String
  secret : String

/-- Go `map[string]secretMap`, the resolution map returned by `initSecretMap()`. -/
abbrev SecretMapTable := List (String × secretMap)

/-- Go `secretMap[key]`: the entry, or the zero value of the struct. -/
def SecretMapTable.get (t : SecretMapTable) (key : String) : secretMap :=
  (t.lookup key).getD ⟨"", ""⟩

/-- Go `VaultConfig`. -/
structure VaultConfig where
  Legacy : Bool
  Copy : Bool

/-- The client's `Response[map[string]interface{}]`. -/
structure Response where
  Data : GoMap

/-! ## Control outcomes -/

/-- How a Go call ends. -/
inductive Outcome (α : Type) where
  | ret : α → Outcome α
  | panic : Outcome α
  | fatal : Outcome α

/-- Result of a state-passing call: how it ended and the world it left. -/
structure Res (σ α : Type) where
  out : Outcome α
  state : σ

/-- Sequencing of state-passing calls; a panic or exit stops the sequence. -/
def Res.bind {σ α β : Type} (r : Res σ α) (k : α → σ → Res σ β) : Res σ β :=
  match r.out with
  | .ret a => k a r.state
  | .panic => ⟨.panic, r.state⟩
  | .fatal => ⟨.fatal, r.state⟩

/-! ## The `Vaulter` interface and the calls made through it -/

/-- Go interface `Vaulter` (the methods used by the provisioning functions). -/
structure Vaulter (σ : Type) where
  makeEngineSlice : σ → Res σ (List String × Option Err)
  createEngines : Secret → σ → Res σ (String × Option Err)
  GetSecretEngine : σ → Res σ GoMap
  hydrateNewSecretsStruct : List Secret → SecretMapTable → σ → Res σ (List Secret)
  writeSecret : String → GoMap → σ → Res σ (Option Err)

/-- A call issued through the `Vaulter` interface. -/
inductive VCall where
  | makeEngineSlice : VCall
  | createEngines : Secret → VCall
  | hydrateNewSecretsStruct : List Secret → SecretMapTable → VCall
  | writeSecret : String → GoMap → VCall

/-- A run of a provisioning function: interface calls issued (in order), the
world left behind and how the function ended. -/
structure Run (σ α : Type) where
  calls : List VCall
  state : σ
  out : Outcome α

/-- A run that issues no call and returns. -/
def Run.pure {σ α : Type} (a : α) (st : σ) : Run σ α :=
  ⟨[], st, .ret a⟩

/-- Sequencing of runs. -/
def Run.bind {σ α β : Type} (r : Run σ α) (k : α → σ → Run σ β) : Run σ β :=
  match r.out with
  | .ret a => let r2 := k a r.state; ⟨r.calls ++ r2.calls, r2.state, r2.out⟩
  | .panic => ⟨r.calls, r.state, .panic⟩
  | .fatal => ⟨r.calls, r.state, .fatal⟩

/-- An interface call, recorded. -/
def Run.call {σ α : Type} (c : VCall) (r : Res σ α) : Run σ α :=
  ⟨[c], r.state, r.out⟩

/-! ## `CreateDataInVault` and `InitVault` -/

/-- Inner loop of `CreateDataInVault` (`for _, kv := range secret.Keys`). -/
def writeKeys {σ : Type} (v : Vaulter σ) (engine : String) : List KV → σ → Run σ Unit
  | [], st => Run.pure () st
  | kv :: rest, st =>
    let path := engine ++ "/data/" ++ kv.Path
    (Run.call (.writeSecret path kv.Data) (v.writeSecret path kv.Data st)).bind
      (fun _ st1 => writeKeys v engine rest st1)

/-- Body of the outer loop of `CreateDataInVault` for one secret. -/
def provisionSecret {σ : Type} (v : Vaulter σ) (engines : List String) (secret : Secret)
    (st : σ) : Run σ Unit :=
  if !engines.contains (secret.Engine ++ "/") then
    (Run.call (.createEngines secret) (v.createEngines secret st)).bind
      (fun _ st1 => writeKeys v secret.Engine secret.Keys st1)
  else writeKeys v secret.Engine secret.Keys st

/-- Outer loop of `CreateDataInVault` (`for _, secret := range s`). -/
def provisionAll {σ : Type} (v : Vaulter σ) (engines : List String) : List Secret → σ → Run σ Unit
  | [], st => Run.pure () st
  | secret :: rest, st =>
    (provisionSecret v engines secret st).bind (fun _ st1 => provisionAll v engines rest st1)

/-- Go `CreateDataInVault`; the result is the returned `error`. -/
def CreateDataInVault {σ : Type} (v : Vaulter σ) (s : List Secret) (st : σ) :
    Run σ (Option Err) :=
  (Run.call .makeEngineSlice (v.makeEngineSlice st)).bind (fun r st1 =>
    match r.2 with
    | some err => Run.pure (some err) st1
    | none => (provisionAll v r.1 s st1).bind (fun _ st2 => Run.pure none st2))

/-- First statement of `InitVault`: the resolution pass, run only when the
configuration is non-legacy and asks for copying; yields the secrets as they
are afterwards. -/
def resolutionPass {σ : Type} (v : Vaulter σ) (s : List Secret) (c : VaultConfig)
    (sm : SecretMapTable) (st : σ) : Run σ (List Secret) :=
  if !c.Legacy && c.Copy then
    Run.call (.hydrateNewSecretsStruct s sm) (v.hydrateNewSecretsStruct s sm st)
  else Run.pure s st

/-- Go `InitVault`; `sm` is the table returned by `initSecretMap()`. -/
def InitVault {σ : Type} (v : Vaulter σ) (s : List Secret) (c : VaultConfig)
    (sm : SecretMapTable) (st : σ) : Run σ (String × Option Err) :=
  (resolutionPass v s c sm st).bind (fun s1 st1 =>
    (CreateDataInVault v s1 st1).bind (fun err st2 =>
      match err with
      | some e => Run.pure ("", some e) st2
      | none => Run.pure ("Vault complete", none) st2))

/-! ## The third-party client and the `*AcmeVault` implementation -/

/-- A request sent to the secrets store through the client. -/
inductive ClientCall where
  | MountsListSecretsEngines : ClientCall
  | MountsEnableSecretsEngine : String → String → ClientCall
  | Read : String → ClientCall
  | Write : String → GoMap → ClientCall

/-- The operations of the client used by the code, over a store state `τ`.
Listing and reading are queries; enabling an engine (path, type) and writing
(path, body) may change the store.  A query answers with an error, or with a
response pointer that may be nil. -/
structure Client (τ : Type) where
  MountsListSecretsEngines : τ → Except Err (Option Response)
  MountsEnableSecretsEngine : τ → String → String → Option Err × τ
  Read : τ → String → Except Err (Option Response)
  Write : τ → String → GoMap → Option Err × τ

/-- The store together with the requests sent to it so far. -/
structure World (τ : Type) where
  store : τ
  log : List ClientCall

/-- Go `(*AcmeVault).GetSecretEngine`. -/
def AcmeVault.GetSecretEngine {τ : Type} (c : Client τ) (w : World τ) : Res (World τ) GoMap :=
  let w1 : World τ := ⟨w.store, w.log ++ [.MountsListSecretsEngines]⟩
  match c.MountsListSecretsEngines w.store with
  | .error _ => ⟨.fatal, w1⟩
  | .ok none => ⟨.panic, w1⟩
  | .ok (some engs) => ⟨.ret engs.Data, w1⟩

/-- Go `(*AcmeVault).makeEngineSlice`. -/
def AcmeVault.makeEngineSlice {τ : Type} (c : Client τ) (w : World τ) :
    Res (World τ) (List String × Option Err) :=
  (AcmeVault.GetSecretEngine c w).bind (fun m w1 => ⟨.ret (GoMap.keys m, none), w1⟩)

/-- Go `(*AcmeVault).createEngines`. -/
def AcmeVault.createEngines {τ : Type} (c : Client τ) (secret : Secret) (w : World τ) :
    Res (World τ) (String × Option Err) :=
  let r := c.MountsEnableSecretsEngine w.store secret.Engine "kv-v2"
  let w1 : World τ := ⟨r.2, w.log ++ [.MountsEnableSecretsEngine secret.Engine "kv-v2"]⟩
  match r.1 with
  | some err => ⟨.ret ("", some err), w1⟩
  | none => ⟨.ret ("Processed: " ++ secret.Engine, none), w1⟩

/-- Go `(*AcmeVault).writeSecret`: a failed write sends a fatal log event. -/
def AcmeVault.writeSecret {τ : Type} (c : Client τ) (path : String) (data : GoMap)
    (w : World τ) : Res (World τ) (Option Err) :=
  let body : GoMap := [("data", .map data)]
  let r := c.Write w.store path body
  let w1 : World τ := ⟨r.2, w.log ++ [.Write path body]⟩
  match r.1 with
  | some _ => ⟨.fatal, w1⟩
  | none => ⟨.ret none, w1⟩

/-- Go `ReadSecret`. -/
def ReadSecret {τ : Type} (c : Client τ) (path secret : String) (w : World τ) :
    Res (World τ) String :=
  let w1 : World τ := ⟨w.store, w.log ++ [.Read path]⟩
  match c.Read w.store path with
  | .error _ => ⟨.ret "error reading secret", w1⟩
  | .ok none => ⟨.panic, w1⟩
  | .ok (some response) =>
    match GoMap.get response.Data "data" with
    | .map data =>
      match GoMap.get data secret with
      | .str value => ⟨.ret value, w1⟩
      | _ => ⟨.panic, w1⟩
    | _ => ⟨.ret ("response data for " ++ secret ++ " secret not ok"), w1⟩

/-- Innermost loop of `hydrateNewSecretsStruct` (`for key := range kv.Data`),
over the keys still to visit and the current content of the map. -/
def hydrateKeys {τ : Type} (c : Client τ) (sm : SecretMapTable) :
    List String → GoMap → World τ → Res (World τ) GoMap
  | [], data, w => ⟨.ret data, w⟩
  | key :: rest, data, w =>
    let e := SecretMapTable.get sm key
    if e.path != "" then
      (ReadSecret c e.path e.secret w).bind
        (fun value w1 => hydrateKeys c sm rest (GoMap.set data key (.str value)) w1)
    else hydrateKeys c sm rest data w

/-- Middle loop of `hydrateNewSecretsStruct` (`for _, kv := range secret.Keys`). -/
def hydrateKVs {τ : Type} (c : Client τ) (sm : SecretMapTable) :
    List KV → World τ → Res (World τ) (List KV)
  | [], w => ⟨.ret [], w⟩
  | kv :: rest, w =>
    (hydrateKeys c sm (GoMap.keys kv.Data) kv.Data w).bind (fun data w1 =>
      (hydrateKVs c sm rest w1).bind (fun rest1 w2 => ⟨.ret (⟨kv.Path, data⟩ :: rest1), w2⟩))

/-- Go `(*AcmeVault).hydrateNewSecretsStruct`; returns the secrets as mutated. -/
def AcmeVault.hydrateNewSecretsStruct {τ : Type} (c : Client τ) :
    List Secret → SecretMapTable → World τ → Res (World τ) (List Secret)
  | [], _, w => ⟨.ret [], w⟩
  | secret :: rest, sm, w =>
    (hydrateKVs c sm secret.Keys w).bind (fun keys w1 =>
      (AcmeVault.hydrateNewSecretsStruct c rest sm w1).bind
        (fun rest1 w2 => ⟨.ret (⟨secret.Engine, keys⟩ :: rest1), w2⟩))

/-- Go `*AcmeVault` as a `Vaulter`, bound to a client. -/
def AcmeVault {τ : Type} (c : Client τ) : Vaulter (World τ) where
  makeEngineSlice := AcmeVault.makeEngineSlice c
  createEngines := AcmeVault.createEngines c
  GetSecretEngine := AcmeVault.GetSecretEngine c
  hydrateNewSecretsStruct := AcmeVault.hydrateNewSecretsStruct c
  writeSecret := AcmeVault.writeSecret c

/-! ## A reference store -/

/-- Modelled from the spec: the secrets store behind the client (an external
collaborator, not part of the sources).  Mounted engines are listed under
their name with a trailing separator; a write overwrites what is stored at
its path; every request succeeds. -/
structure Store where
  mounts : List String
  kv : String → Option GoMap

/-- Modelled from the spec: the client contract of section 6 over `Store`. -/
def Store.client : Client Store where
  MountsListSecretsEngines := fun st =>
    .ok (some ⟨st.mounts.map (fun m => (m, Value.map []))⟩)
  MountsEnableSecretsEngine := fun st path _ =>
    (none, ⟨if st.mounts.contains (path ++ "/") then st.mounts else st.mounts ++ [path ++ "/"],
      st.kv⟩)
  Read := fun st path =>
    match st.kv path with
    | some body => .ok (some ⟨body⟩)
    | none => .error "not found"
  Write := fun st path body =>
    (none, ⟨st.mounts, fun p => if p == path then some body else st.kv p⟩)

/-! ## Specification-side definitions -/

/-- Recognises `createEngines` calls. -/
def VCall.isCreate : VCall → Bool
  | .createEngines _ => true
  | _ => false

/-- Recognises `writeSecret` calls. -/
def VCall.isWrite : VCall → Bool
  | .writeSecret _ _ => true
  | _ => false

/-- The writes of one secret: one per key group, in `Keys` order, to
`<engine>/data/<path>` with the key group's data. -/
def writeCalls (engine : String) (keys : List KV) : List VCall :=
  keys.map (fun kv => VCall.writeSecret (engine ++ "/data/" ++ kv.Path) kv.Data)

/-- The calls for one secret: a create-engine call when the engine name with a
trailing separator is not enumerated, then the writes. -/
def secretCalls (engines : List String) (secret : Secret) : List VCall :=
  (if engines.contains (secret.Engine ++ "/") then [] else [VCall.createEngines secret])
    ++ writeCalls secret.Engine secret.Keys

/-- The calls for a list of secrets, in list order. -/
def expectedCalls (engines : List String) (s : List Secret) : List VCall :=
  s.flatMap (secretCalls engines)

/-- Every `createEngines` and `writeSecret` call of `v` returns (with or
without an error). -/
def Vaulter.Returns {σ : Type} (v : Vaulter σ) : Prop :=
  (∀ secret st, ∃ r, (v.createEngines secret st).out = .ret r) ∧
  (∀ path data st, ∃ r, (v.writeSecret path data st).out = .ret r)

/-- The calls of `r` are an initial segment of `A`, and all of `A` when `r`
returns. -/
def Run.Follows {σ α : Type} (r : Run σ α) (A : List VCall) : Prop :=
  r.calls <+: A ∧ ∀ a, r.out = .ret a → r.calls = A

/-! ## Sample inputs -/

/-- The secret of the specification's example. -/
def sampleSecret : Secret :=
  ⟨"app", [⟨"db", [("user", Value.str "alice")]⟩]⟩

/-- A store with no engine and no data. -/
def emptyStore : Store :=
  ⟨[], fun _ => none⟩

/-- A store in which the engine `app` is mounted. -/
def appStore : Store :=
  ⟨["app/"], fun _ => none⟩

/-- A client whose store lists the engine `app` and rejects every write. -/
def deniedClient : Client Unit where
  MountsListSecretsEngines := fun _ => .ok (some ⟨[("app/", Value.map [])]⟩)
  MountsEnableSecretsEngine := fun st _ _ => (none, st)
  Read := fun _ _ => .error "permission denied"
  Write := fun st _ _ => (some "permission denied", st)

/-- A secret with two key groups. -/
def twoKeySecret : Secret :=
  ⟨"app", [⟨"a", [("k", Value.str "1")]⟩, ⟨"b", [("k", Value.str "2")]⟩]⟩

/-- A test double of the interface: enumeration answers `listErr`, every
create and every write returns an error. -/
def failingVaulter (listErr : Option Err) : Vaulter Unit where
  makeEngineSlice := fun st => ⟨.ret ([], listErr), st⟩
  createEngines := fun _ st => ⟨.ret ("", some "create failed"), st⟩
  GetSecretEngine := fun st => ⟨.ret [], st⟩
  hydrateNewSecretsStruct := fun s _ st => ⟨.ret s, st⟩
  writeSecret := fun _ _ st => ⟨.ret (some "write failed"), st⟩

/-- Recognises `hydrateNewSecretsStruct` calls. -/
def VCall.isHydrate : VCall → Bool
  | .hydrateNewSecretsStruct _ _ => true
  | _ => false

/-- Recognises read requests. -/
def ClientCall.isRead : ClientCall → Bool
  | .Read _ => true
  | _ => false

/-- The requests of the second world extend those of the first by requests
that are not reads. -/
def NoNewRead {τ : Type} (w w1 : World τ) : Prop :=
  ∃ new, w1.log = w.log ++ new ∧ ∀ call ∈ new, ClientCall.isRead call = false

/-- A store holding one secret under `app/data/db`. -/
def aliceStore : Store :=
  ⟨["app/"], fun p =>
    if p == "app/data/db" then some [("data", Value.map [("user", Value.str "alice")])]
    else none⟩

/-- The value a field holds after the resolution pass: the string read from the
store when the resolution map has an entry with a non-empty path for the field
name, the original value otherwise. -/
def resolveField {τ : Type} (c : Client τ) (sm : SecretMapTable) (w : World τ)
    (key : String) (v : Value) : Value :=
  if (SecretMapTable.get sm key).path = "" then v
  else
    match (ReadSecret c (SecretMapTable.get sm key).path (SecretMapTable.get sm key).secret w).out with
    | .ret value => Value.str value
    | _ => v

/-- Resolution of the fields whose names are in `ks`. -/
def resolveSome {τ : Type} (c : Client τ) (sm : SecretMapTable) (w : World τ)
    (ks : List String) (data : GoMap) : GoMap :=
  data.map (fun e => if e.1 ∈ ks then (e.1, resolveField c sm w e.1 e.2) else e)

/-- Resolution of every field of a key group's data. -/
def resolveData {τ : Type} (c : Client τ) (sm : SecretMapTable) (w : World τ)
    (data : GoMap) : GoMap :=
  data.map (fun e => (e.1, resolveField c sm w e.1 e.2))

/-- Resolution of every key group of every secret. -/
def resolveSecrets {τ : Type} (c : Client τ) (sm : SecretMapTable) (w : World τ)
    (s : List Secret) : List Secret :=
  s.map (fun secret =>
    ⟨secret.Engine, secret.Keys.map (fun kv => ⟨kv.Path, resolveData c sm w kv.Data⟩)⟩)

/-- A secret with one field to resolve and one plain field. -/
def webSecret : Secret :=
  ⟨"web", [⟨"cfg", [("dbuser", Value.str "to be resolved"), ("plain", Value.str "x")]⟩]⟩

/-- A resolution map sending the field `dbuser` to the field `user` stored under
`app/data/db`. -/
def sampleMap : SecretMapTable :=
  [("dbuser", ⟨"app/data/db", "user"⟩)]

/-- The world after one interface call has returned. -/
def Vaulter.step {σ : Type} (v : Vaulter σ) (st : σ) : VCall → σ
  | .makeEngineSlice => (v.makeEngineSlice st).state
  | .createEngines secret => (v.createEngines secret st).state
  | .hydrateNewSecretsStruct s sm => (v.hydrateNewSecretsStruct s sm st).state
  | .writeSecret path data => (v.writeSecret path data st).state

/-- The world after a sequence of interface calls that all return. -/
def Vaulter.replay {σ : Type} (v : Vaulter σ) (st : σ) (calls : List VCall) : σ :=
  calls.foldl v.step st

/-- The body stored last at path `p` by the writes among `calls`, if any. -/
def lastBody : List VCall → String → Option GoMap
  | [], _ => none
  | call :: rest, p =>
    match lastBody rest p with
    | some b => some b
    | none =>
      match call with
      | .writeSecret path data => if p == path then some [("data", Value.map data)] else none
      | _ => none

/-- The requests the production implementation sends for an interface call
that returns. -/
def VCall.requests : VCall → List ClientCall
  | .makeEngineSlice => [ClientCall.MountsListSecretsEngines]
  | .createEngines secret => [ClientCall.MountsEnableSecretsEngine secret.Engine "kv-v2"]
  | .hydrateNewSecretsStruct _ _ => []
  | .writeSecret path data => [ClientCall.Write path [("data", Value.map data)]]

/-- Recognises enable-engine requests. -/
def ClientCall.isEnable : ClientCall → Bool
  | .MountsEnableSecretsEngine _ _ => true
  | _ => false

/-- Recognises write requests. -/
def ClientCall.isWrite : ClientCall → Bool
  | .Write _ _ => true
  | _ => false

/-- A client whose store lists no engine and rejects every change: enabling an
engine and writing both return an error. -/
def readOnlyClient : Client Unit where
  MountsListSecretsEngines := fun _ => .ok (some ⟨[]⟩)
  MountsEnableSecretsEngine := fun st _ _ => (some "permission denied", st)
  Read := fun _ _ => .error "permission denied"
  Write := fun st _ _ => (some "permission denied", st)

/-- A client whose store lists the engine `app` and rejects the writes to
`app/data/a` only. -/
def pickyClient : Client Unit where
  MountsListSecretsEngines := fun _ => .ok (some ⟨[("app/", Value.map [])]⟩)
  MountsEnableSecretsEngine := fun st _ _ => (none, st)
  Read := fun _ _ => .error "permission denied"
  Write := fun st path _ =>
    (if path == "app/data/a" then some "permission denied" else none, st)

/-! # Theorems -/

/-! ## Lemmas on runs -/

theorem Run.follows_pure {σ α : Type} (a : α) (st : σ) : (Run.pure a st).Follows [] := by
  simp [Run.Follows, Run.pure]

theorem Run.follows_call {σ α : Type} (c : VCall) (r : Res σ α) :
    (Run.call c r).Follows [c] := by
  simp [Run.Follows, Run.call]

theorem Run.follows_bind {σ α β : Type} {r : Run σ α} {k : α → σ → Run σ β}
    {A B : List VCall} (hr : r.Follows A) (hk : ∀ a st, (k a st).Follows B) :
    (r.bind k).Follows (A ++ B) := by
  unfold Run.bind
  cases hout : r.out with
  | ret a =>
    have hA := hr.2 a hout
    have hB := hk a r.state
    refine ⟨?_, ?_⟩
    · simp only [hA]
      exact (List.prefix_append_right_inj A).mpr hB.1
    · intro b hb
      simp only [hA]
      rw [hB.2 b hb]
  | panic =>
    refine ⟨hr.1.trans (List.prefix_append A B), ?_⟩
    intro b hb
    simp at hb
  | fatal =>
    refine ⟨hr.1.trans (List.prefix_append A B), ?_⟩
    intro b hb
    simp at hb

theorem Run.bind_ret {σ α β : Type} {r : Run σ α} {k : α → σ → Run σ β} {a : α}
    (hr : r.out = .ret a) : (r.bind k).out = (k a r.state).out := by
  unfold Run.bind
  simp [hr]

theorem Run.bind_state {σ α β : Type} {r : Run σ α} {k : α → σ → Run σ β} {a : α}
    (hr : r.out = .ret a) : (r.bind k).state = (k a r.state).state := by
  unfold Run.bind
  simp [hr]

theorem Run.bind_calls {σ α β : Type} {r : Run σ α} {k : α → σ → Run σ β} {a : α}
    (hr : r.out = .ret a) : (r.bind k).calls = r.calls ++ (k a r.state).calls := by
  unfold Run.bind
  simp [hr]

/-! ## The calls of `CreateDataInVault` -/

theorem writeKeys_follows {σ : Type} (v : Vaulter σ) (engine : String) (keys : List KV) (st : σ) :
    (writeKeys v engine keys st).Follows (writeCalls engine keys) := by
  induction keys generalizing st with
  | nil => exact Run.follows_pure () st
  | cons kv rest ih =>
    exact Run.follows_bind (Run.follows_call _ _) (fun _ st1 => ih st1)

theorem writeKeys_returns {σ : Type} (v : Vaulter σ) (hv : v.Returns) (engine : String)
    (keys : List KV) (st : σ) : (writeKeys v engine keys st).out = .ret () := by
  induction keys generalizing st with
  | nil => rfl
  | cons kv rest ih =>
    obtain ⟨r, hr⟩ := hv.2 (engine ++ "/data/" ++ kv.Path) kv.Data st
    have h : (Run.call (.writeSecret (engine ++ "/data/" ++ kv.Path) kv.Data)
        (v.writeSecret (engine ++ "/data/" ++ kv.Path) kv.Data st)).out = .ret r := hr
    show (Run.bind _ _).out = _
    rw [Run.bind_ret h]
    exact ih _

theorem provisionSecret_follows {σ : Type} (v : Vaulter σ) (engines : List String)
    (secret : Secret) (st : σ) :
    (provisionSecret v engines secret st).Follows (secretCalls engines secret) := by
  unfold provisionSecret secretCalls
  cases h : engines.contains (secret.Engine ++ "/") with
  | true =>
    simpa using writeKeys_follows v secret.Engine secret.Keys st
  | false =>
    simpa using Run.follows_bind (Run.follows_call (.createEngines secret)
      (v.createEngines secret st)) (fun _ st1 => writeKeys_follows v secret.Engine secret.Keys st1)

theorem provisionSecret_returns {σ : Type} (v : Vaulter σ) (hv : v.Returns)
    (engines : List String) (secret : Secret) (st : σ) :
    (provisionSecret v engines secret st).out = .ret () := by
  unfold provisionSecret
  cases h : engines.contains (secret.Engine ++ "/") with
  | true => simpa using writeKeys_returns v hv secret.Engine secret.Keys st
  | false =>
    obtain ⟨r, hr⟩ := hv.1 secret st
    have h1 : (Run.call (.createEngines secret) (v.createEngines secret st)).out = .ret r := hr
    simp only [Bool.not_false, if_true]
    rw [Run.bind_ret h1]
    exact writeKeys_returns v hv _ _ _

theorem provisionAll_follows {σ : Type} (v : Vaulter σ) (engines : List String)
    (s : List Secret) (st : σ) :
    (provisionAll v engines s st).Follows (expectedCalls engines s) := by
  induction s generalizing st with
  | nil => exact Run.follows_pure () st
  | cons secret rest ih =>
    exact Run.follows_bind (provisionSecret_follows v engines secret st) (fun _ st1 => ih st1)

theorem provisionAll_returns {σ : Type} (v : Vaulter σ) (hv : v.Returns)
    (engines : List String) (s : List Secret) (st : σ) :
    (provisionAll v engines s st).out = .ret () := by
  induction s generalizing st with
  | nil => rfl
  | cons secret rest ih =>
    show (Run.bind _ _).out = _
    rw [Run.bind_ret (provisionSecret_returns v hv engines secret st)]
    exact ih _

theorem CreateDataInVault_err {σ : Type} (v : Vaulter σ) (s : List Secret) (st st1 : σ)
    (engines : List String) (err : Err)
    (hm : v.makeEngineSlice st = ⟨.ret (engines, some err), st1⟩) :
    CreateDataInVault v s st = ⟨[.makeEngineSlice], st1, .ret (some err)⟩ := by
  simp [CreateDataInVault, Run.bind, Run.call, Run.pure, hm]

theorem CreateDataInVault_calls {σ : Type} (v : Vaulter σ) (s : List Secret) (st st1 : σ)
    (engines : List String)
    (hm : v.makeEngineSlice st = ⟨.ret (engines, none), st1⟩) :
    (CreateDataInVault v s st).calls
      = VCall.makeEngineSlice :: (provisionAll v engines s st1).calls := by
  cases h : (provisionAll v engines s st1).out <;>
    simp [CreateDataInVault, Run.bind, Run.call, Run.pure, hm, h]

theorem CreateDataInVault_state {σ : Type} (v : Vaulter σ) (s : List Secret) (st st1 : σ)
    (engines : List String)
    (hm : v.makeEngineSlice st = ⟨.ret (engines, none), st1⟩) :
    (CreateDataInVault v s st).state = (provisionAll v engines s st1).state := by
  cases h : (provisionAll v engines s st1).out <;>
    simp [CreateDataInVault, Run.bind, Run.call, Run.pure, hm, h]

theorem CreateDataInVault_out {σ : Type} (v : Vaulter σ) (s : List Secret) (st st1 : σ)
    (engines : List String)
    (hm : v.makeEngineSlice st = ⟨.ret (engines, none), st1⟩) (hp : (provisionAll v engines s st1).out = .ret ()) :
    (CreateDataInVault v s st).out = .ret none := by
  simp [CreateDataInVault, Run.bind, Run.call, Run.pure, hm, hp]

theorem CreateDataInVault_calls_initial {σ : Type} (v : Vaulter σ) (s : List Secret) (st st1 : σ)
    (engines : List String) (e : Option Err)
    (hm : v.makeEngineSlice st = ⟨.ret (engines, e), st1⟩) :
    (CreateDataInVault v s st).calls <+: VCall.makeEngineSlice :: expectedCalls engines s := by
  cases e with
  | some err =>
    rw [CreateDataInVault_err v s st st1 engines err hm]
    exact List.prefix_iff_eq_append.mpr rfl
  | none =>
    rw [CreateDataInVault_calls v s st st1 engines hm]
    exact (List.prefix_cons_inj _).mpr (provisionAll_follows v engines s st1).1

theorem CreateDataInVault_calls_eq {σ : Type} (v : Vaulter σ) (hv : v.Returns) (s : List Secret)
    (st st1 : σ) (engines : List String)
    (hm : v.makeEngineSlice st = ⟨.ret (engines, none), st1⟩) :
    (CreateDataInVault v s st).calls = VCall.makeEngineSlice :: expectedCalls engines s := by
  rw [CreateDataInVault_calls v s st st1 engines hm,
    (provisionAll_follows v engines s st1).2 () (provisionAll_returns v hv engines s st1)]

theorem expectedCalls_filter_isCreate (engines : List String) (s : List Secret) :
    (expectedCalls engines s).filter VCall.isCreate
      = (s.filter (fun secret => !engines.contains (secret.Engine ++ "/"))).map
          VCall.createEngines := by
  induction s with
  | nil => rfl
  | cons secret rest ih =>
    have hw : (writeCalls secret.Engine secret.Keys).filter VCall.isCreate = [] := by
      simp [writeCalls, List.filter_eq_nil_iff, VCall.isCreate]
    unfold expectedCalls at ih ⊢
    rw [List.flatMap_cons, List.filter_append, ih]
    by_cases h : secret.Engine ++ "/" ∈ engines <;>
      simp [secretCalls, h, hw, VCall.isCreate, List.filter_cons]

theorem expectedCalls_filter_isWrite (engines : List String) (s : List Secret) :
    (expectedCalls engines s).filter VCall.isWrite
      = s.flatMap (fun secret => writeCalls secret.Engine secret.Keys) := by
  induction s with
  | nil => rfl
  | cons secret rest ih =>
    have hw : (writeCalls secret.Engine secret.Keys).filter VCall.isWrite
        = writeCalls secret.Engine secret.Keys := by
      simp [writeCalls, List.filter_eq_self, VCall.isWrite]
    unfold expectedCalls at ih ⊢
    rw [List.flatMap_cons, List.filter_append, ih]
    by_cases h : secret.Engine ++ "/" ∈ engines <;>
      simp [secretCalls, h, hw, VCall.isWrite, List.filter_cons]

/-! ## The production implementation on the reference store -/

theorem AcmeVault_createEngines_returns {τ : Type} (c : Client τ) (secret : Secret)
    (w : World τ) : ∃ r, (AcmeVault.createEngines c secret w).out = .ret r := by
  unfold AcmeVault.createEngines
  simp only
  split <;> simp

theorem AcmeVault_createEngines_log {τ : Type} (c : Client τ) (secret : Secret)
    (w : World τ) : (AcmeVault.createEngines c secret w).state.log
      = w.log ++ [ClientCall.MountsEnableSecretsEngine secret.Engine "kv-v2"] := by
  unfold AcmeVault.createEngines
  simp only
  split <;> simp

theorem AcmeVault_store_returns : (AcmeVault Store.client).Returns := by
  refine ⟨fun secret st => AcmeVault_createEngines_returns _ secret st, ?_⟩
  intro path data st
  exact ⟨none, rfl⟩

/-! ## Claims on `CreateDataInVault` -/

/-- C1: whatever list of engine names `makeEngineSlice` returns, `CreateDataInVault`
issues no `createEngines` call for a secret whose engine name followed by "/" is
in that list. -/
theorem C1_no_create_for_listed_engine {σ : Type} (v : Vaulter σ) (s : List Secret)
    (st st1 : σ) (engines : List String) (e : Option Err)
    (hm : v.makeEngineSlice st = ⟨.ret (engines, e), st1⟩) (secret : Secret)
    (hin : secret.Engine ++ "/" ∈ engines) :
    VCall.createEngines secret ∉ (CreateDataInVault v s st).calls := by
  intro hmem
  have h1 := (CreateDataInVault_calls_initial v s st st1 engines e hm).subset hmem
  rw [List.mem_cons] at h1
  rcases h1 with h1 | h1
  · cases h1
  rw [expectedCalls, List.mem_flatMap] at h1
  obtain ⟨secret1, -, h2⟩ := h1
  by_cases hc : secret1.Engine ++ "/" ∈ engines
  · simp [secretCalls, writeCalls, hc] at h2
  · simp [secretCalls, writeCalls, hc] at h2
    exact hc (h2 ▸ hin)

theorem C1_witness :
    sampleSecret.Engine ++ "/" ∈ ["app/"] ∧
    VCall.createEngines sampleSecret ∉
      (CreateDataInVault (AcmeVault Store.client) [sampleSecret] ⟨appStore, []⟩).calls :=
  ⟨by decide,
    C1_no_create_for_listed_engine (AcmeVault Store.client) [sampleSecret] ⟨appStore, []⟩
      ⟨appStore, [.MountsListSecretsEngines]⟩ ["app/"] none rfl sampleSecret (by decide)⟩

/-- The calls of `CreateDataInVault` are always an initial segment of the
enumeration followed by the expected calls, and all of them when the run
returns. -/
theorem CreateDataInVault_follows {σ : Type} (v : Vaulter σ) (s : List Secret) (st st1 : σ)
    (engines : List String)
    (hm : v.makeEngineSlice st = ⟨.ret (engines, none), st1⟩) :
    (CreateDataInVault v s st).calls <+: VCall.makeEngineSlice :: expectedCalls engines s ∧
    ((CreateDataInVault v s st).out = .ret none →
      (CreateDataInVault v s st).calls = VCall.makeEngineSlice :: expectedCalls engines s) := by
  refine ⟨CreateDataInVault_calls_initial v s st st1 engines none hm, ?_⟩
  intro hout
  rw [CreateDataInVault_calls v s st st1 engines hm]
  congr 1
  cases hp : (provisionAll v engines s st1).out with
  | ret u => exact (provisionAll_follows v engines s st1).2 u hp
  | panic => simp [CreateDataInVault, Run.bind, Run.call, Run.pure, hm, hp] at hout
  | fatal => simp [CreateDataInVault, Run.bind, Run.call, Run.pure, hm, hp] at hout

/-- When the interface calls return, the `createEngines` calls issued are, in
order, exactly one for each input secret whose engine name followed by "/" is not
enumerated, and the writes issued are those of every key group of every secret,
whatever the create calls returned. -/
theorem creates_and_writes_of_returning_calls {σ : Type} (v : Vaulter σ) (hv : v.Returns)
    (s : List Secret) (st st1 : σ) (engines : List String)
    (hm : v.makeEngineSlice st = ⟨.ret (engines, none), st1⟩) :
    (CreateDataInVault v s st).calls.filter VCall.isCreate
        = (s.filter (fun secret => !engines.contains (secret.Engine ++ "/"))).map
            VCall.createEngines
    ∧ (CreateDataInVault v s st).calls.filter VCall.isWrite
        = s.flatMap (fun secret => secret.Keys.map (fun kv =>
            VCall.writeSecret (secret.Engine ++ "/data/" ++ kv.Path) kv.Data)) := by
  rw [CreateDataInVault_calls_eq v hv s st st1 engines hm]
  refine ⟨?_, ?_⟩
  · rw [List.filter_cons]
    simpa [VCall.isCreate] using expectedCalls_filter_isCreate engines s
  · rw [List.filter_cons]
    simpa [VCall.isWrite, writeCalls] using expectedCalls_filter_isWrite engines s

/-- With an interface whose creates and writes all return an error, every
create and every write of two secrets is still issued. -/
theorem sample_failing_calls_continue :
    (CreateDataInVault (failingVaulter none) [twoKeySecret, webSecret] ()).calls
      = [VCall.makeEngineSlice,
          VCall.createEngines twoKeySecret,
          VCall.writeSecret "app/data/a" [("k", Value.str "1")],
          VCall.writeSecret "app/data/b" [("k", Value.str "2")],
          VCall.createEngines webSecret,
          VCall.writeSecret "web/data/cfg"
            [("dbuser", Value.str "to be resolved"), ("plain", Value.str "x")]] ∧
    (CreateDataInVault (failingVaulter none) [twoKeySecret, webSecret] ()).out = .ret none :=
  ⟨rfl, rfl⟩

/-- The example of the specification on the production implementation: the
calls issued and the requests sent to an empty store. -/
theorem sample_run_requests :
    (CreateDataInVault (AcmeVault Store.client) [sampleSecret] ⟨emptyStore, []⟩).calls
      = [VCall.makeEngineSlice, VCall.createEngines sampleSecret,
          VCall.writeSecret "app/data/db" [("user", Value.str "alice")]] ∧
    (CreateDataInVault (AcmeVault Store.client) [sampleSecret] ⟨emptyStore, []⟩).state.log
      = [ClientCall.MountsListSecretsEngines,
          ClientCall.MountsEnableSecretsEngine "app" "kv-v2",
          ClientCall.Write "app/data/db" [("data", Value.map [("user", Value.str "alice")])]] :=
  ⟨rfl, rfl⟩

/-- C2 fails on the production implementation: with a store that lists no engine
and rejects every change, the create for "app" fails and is skipped, the first
write is rejected and ends the process inside `writeSecret`; the second key
group of that secret and the later secret "web" (whose engine is absent too) get
neither their create call nor their writes, although the input has two secrets
with an absent engine. -/
theorem C2_rejected_write_stops_later_secrets :
    (CreateDataInVault (AcmeVault readOnlyClient) [twoKeySecret, webSecret] ⟨(), []⟩).out
      = .fatal ∧
    (CreateDataInVault (AcmeVault readOnlyClient) [twoKeySecret, webSecret] ⟨(), []⟩).calls
      = [VCall.makeEngineSlice, VCall.createEngines twoKeySecret,
          VCall.writeSecret "app/data/a" [("k", Value.str "1")]] ∧
    (CreateDataInVault (AcmeVault readOnlyClient) [twoKeySecret, webSecret] ⟨(), []⟩).state.log
      = [ClientCall.MountsListSecretsEngines,
          ClientCall.MountsEnableSecretsEngine "app" "kv-v2",
          ClientCall.Write "app/data/a" [("data", Value.map [("k", Value.str "1")])]] ∧
    ([twoKeySecret, webSecret].filter
        (fun secret => !([] : List String).contains (secret.Engine ++ "/"))).map
          VCall.createEngines
      = [VCall.createEngines twoKeySecret, VCall.createEngines webSecret] :=
  ⟨rfl, rfl, rfl, rfl⟩

/-- C3 fails on the production implementation: with a store that rejects the
writes to `app/data/a`, the write to `app/data/db` is issued, the write to
`app/data/a` ends the process inside `writeSecret`, and the key group `b` is
never written, although three writes are expected for the input. -/
theorem C3_rejected_write_leaves_key_group_unwritten :
    (CreateDataInVault (AcmeVault pickyClient) [sampleSecret, twoKeySecret] ⟨(), []⟩).out
      = .fatal ∧
    (CreateDataInVault (AcmeVault pickyClient) [sampleSecret, twoKeySecret] ⟨(), []⟩).calls
      = [VCall.makeEngineSlice,
          VCall.writeSecret "app/data/db" [("user", Value.str "alice")],
          VCall.writeSecret "app/data/a" [("k", Value.str "1")]] ∧
    expectedCalls ["app/"] [sampleSecret, twoKeySecret]
      = [VCall.writeSecret "app/data/db" [("user", Value.str "alice")],
          VCall.writeSecret "app/data/a" [("k", Value.str "1")],
          VCall.writeSecret "app/data/b" [("k", Value.str "2")]] :=
  ⟨rfl, rfl, rfl⟩

theorem AcmeVault_writeSecret_fatal {τ : Type} (c : Client τ) (path : String) (data : GoMap)
    (w : World τ) (err : Err)
    (h : (c.Write w.store path [("data", Value.map data)]).1 = some err) :
    (AcmeVault.writeSecret c path data w).out = .fatal := by
  simp [AcmeVault.writeSecret, h]

/-- C4 fails on the production implementation: with a store that rejects writes,
the first failed write ends the process inside `writeSecret`, and the write for
the next key group is never issued. -/
theorem C4_failed_write_ends_process :
    (CreateDataInVault (AcmeVault deniedClient) [twoKeySecret] ⟨(), []⟩).out = .fatal ∧
    (CreateDataInVault (AcmeVault deniedClient) [twoKeySecret] ⟨(), []⟩).calls
      = [VCall.makeEngineSlice, VCall.writeSecret "app/data/a" [("k", Value.str "1")]] ∧
    (CreateDataInVault (AcmeVault deniedClient) [twoKeySecret] ⟨(), []⟩).state.log
      = [ClientCall.MountsListSecretsEngines,
          ClientCall.Write "app/data/a" [("data", Value.map [("k", Value.str "1")])]] :=
  ⟨rfl, rfl, rfl⟩

/-! ## Claims on `InitVault` -/

theorem resolutionPass_calls {σ : Type} (v : Vaulter σ) (s : List Secret) (c : VaultConfig)
    (sm : SecretMapTable) (st : σ) :
    (resolutionPass v s c sm st).calls
      = if !c.Legacy && c.Copy then [VCall.hydrateNewSecretsStruct s sm] else [] := by
  unfold resolutionPass
  split <;> rfl

theorem InitVault_of_resolution {σ : Type} (v : Vaulter σ) (s : List Secret) (c : VaultConfig)
    (sm : SecretMapTable) (st : σ) (s1 : List Secret)
    (hres : (resolutionPass v s c sm st).out = .ret s1) :
    (InitVault v s c sm st).calls = (resolutionPass v s c sm st).calls
        ++ (CreateDataInVault v s1 (resolutionPass v s c sm st).state).calls ∧
    (InitVault v s c sm st).out
      = match (CreateDataInVault v s1 (resolutionPass v s c sm st).state).out with
        | .ret (some e) => .ret ("", some e)
        | .ret none => .ret ("Vault complete", none)
        | .panic => .panic
        | .fatal => .fatal := by
  unfold InitVault
  rw [Run.bind_calls hres, Run.bind_ret hres]
  generalize CreateDataInVault v s1 (resolutionPass v s c sm st).state = r
  rcases r with ⟨calls, st2, out⟩
  rcases out with (_ | e) | _ | _ <;> simp [Run.bind, Run.pure]

theorem CreateDataInVault_calls_initial_any {σ : Type} (v : Vaulter σ) (s : List Secret) (st : σ) :
    ∃ engines, (CreateDataInVault v s st).calls
      <+: VCall.makeEngineSlice :: expectedCalls engines s := by
  rcases hm : v.makeEngineSlice st with ⟨out, st1⟩
  rcases out with ⟨engines, e⟩ | _ | _
  · exact ⟨engines, CreateDataInVault_calls_initial v s st st1 engines e hm⟩
  · exact ⟨[], by simp [CreateDataInVault, Run.bind, Run.call, hm]⟩
  · exact ⟨[], by simp [CreateDataInVault, Run.bind, Run.call, hm]⟩

theorem mem_expectedCalls_write {engines : List String} {s : List Secret} {path : String}
    {data : GoMap} (h : VCall.writeSecret path data ∈ expectedCalls engines s) :
    ∃ secret ∈ s, ∃ kv ∈ secret.Keys,
      path = secret.Engine ++ "/data/" ++ kv.Path ∧ data = kv.Data := by
  rw [expectedCalls, List.mem_flatMap] at h
  obtain ⟨secret, hs, h2⟩ := h
  refine ⟨secret, hs, ?_⟩
  by_cases hc : secret.Engine ++ "/" ∈ engines
  · simp [secretCalls, writeCalls, hc] at h2
    obtain ⟨kv, hk, h3, h4⟩ := h2
    exact ⟨kv, hk, h3.symm, h4.symm⟩
  · simp [secretCalls, writeCalls, hc] at h2
    obtain ⟨kv, hk, h3, h4⟩ := h2
    exact ⟨kv, hk, h3.symm, h4.symm⟩

theorem expectedCalls_not_hydrate {engines : List String} {s : List Secret} {call : VCall}
    (h : call ∈ VCall.makeEngineSlice :: expectedCalls engines s) : call.isHydrate = false := by
  rw [List.mem_cons] at h
  rcases h with h | h
  · subst h
    rfl
  rw [expectedCalls, List.mem_flatMap] at h
  obtain ⟨secret, -, h2⟩ := h
  by_cases hc : secret.Engine ++ "/" ∈ engines
  · simp [secretCalls, writeCalls, hc] at h2
    obtain ⟨kv, -, h3⟩ := h2
    subst h3
    rfl
  · simp [secretCalls, writeCalls, hc] at h2
    rcases h2 with h3 | ⟨kv, -, h3⟩ <;> subst h3 <;> rfl

/-! ## State invariants of runs -/

theorem Run.bind_rel {σ α β : Type} (R : σ → σ → Prop)
    (htrans : ∀ x y z, R x y → R y z → R x z) {st : σ} {r : Run σ α} {k : α → σ → Run σ β}
    (hr : R st r.state) (hk : ∀ a, R r.state (k a r.state).state) :
    R st (r.bind k).state := by
  unfold Run.bind
  cases hout : r.out with
  | ret a => exact htrans _ _ _ hr (hk a)
  | panic => exact hr
  | fatal => exact hr

theorem writeKeys_rel {σ : Type} (R : σ → σ → Prop) (hrefl : ∀ x, R x x)
    (htrans : ∀ x y z, R x y → R y z → R x z) (v : Vaulter σ)
    (hw : ∀ path data st, R st (v.writeSecret path data st).state)
    (engine : String) (keys : List KV) (st : σ) :
    R st (writeKeys v engine keys st).state := by
  induction keys generalizing st with
  | nil => exact hrefl st
  | cons kv rest ih =>
    exact Run.bind_rel R htrans (hw _ _ st) (fun _ => ih _)

theorem provisionAll_rel {σ : Type} (R : σ → σ → Prop) (hrefl : ∀ x, R x x)
    (htrans : ∀ x y z, R x y → R y z → R x z) (v : Vaulter σ)
    (hc : ∀ secret st, R st (v.createEngines secret st).state)
    (hw : ∀ path data st, R st (v.writeSecret path data st).state)
    (engines : List String) (s : List Secret) (st : σ) :
    R st (provisionAll v engines s st).state := by
  induction s generalizing st with
  | nil => exact hrefl st
  | cons secret rest ih =>
    refine Run.bind_rel R htrans ?_ (fun _ => ih _)
    unfold provisionSecret
    split
    · exact Run.bind_rel R htrans (hc secret st)
        (fun _ => writeKeys_rel R hrefl htrans v hw _ _ _)
    · exact writeKeys_rel R hrefl htrans v hw _ _ _

theorem CreateDataInVault_rel {σ : Type} (R : σ → σ → Prop) (hrefl : ∀ x, R x x)
    (htrans : ∀ x y z, R x y → R y z → R x z) (v : Vaulter σ)
    (hm : ∀ st, R st (v.makeEngineSlice st).state)
    (hc : ∀ secret st, R st (v.createEngines secret st).state)
    (hw : ∀ path data st, R st (v.writeSecret path data st).state)
    (s : List Secret) (st : σ) :
    R st (CreateDataInVault v s st).state := by
  unfold CreateDataInVault
  refine Run.bind_rel R htrans (hm st) ?_
  intro r
  split
  · exact hrefl _
  · exact Run.bind_rel R htrans (provisionAll_rel R hrefl htrans v hc hw _ _ _)
      (fun _ => hrefl _)

theorem NoNewRead.refl {τ : Type} (w : World τ) : NoNewRead w w :=
  ⟨[], by simp, by simp⟩

theorem NoNewRead.trans {τ : Type} (x y z : World τ) (h1 : NoNewRead x y)
    (h2 : NoNewRead y z) : NoNewRead x z := by
  obtain ⟨n1, e1, p1⟩ := h1
  obtain ⟨n2, e2, p2⟩ := h2
  refine ⟨n1 ++ n2, by rw [e2, e1, List.append_assoc], ?_⟩
  intro call hmem
  rcases List.mem_append.mp hmem with h | h
  · exact p1 call h
  · exact p2 call h

theorem AcmeVault_GetSecretEngine_state {τ : Type} (c : Client τ) (w : World τ) :
    (AcmeVault.GetSecretEngine c w).state
      = ⟨w.store, w.log ++ [ClientCall.MountsListSecretsEngines]⟩ := by
  unfold AcmeVault.GetSecretEngine
  simp only
  split <;> rfl

theorem AcmeVault_makeEngineSlice_state {τ : Type} (c : Client τ) (w : World τ) :
    (AcmeVault.makeEngineSlice c w).state
      = ⟨w.store, w.log ++ [ClientCall.MountsListSecretsEngines]⟩ := by
  unfold AcmeVault.makeEngineSlice Res.bind
  cases hout : (AcmeVault.GetSecretEngine c w).out <;>
    simp [AcmeVault_GetSecretEngine_state]

theorem AcmeVault_makeEngineSlice_noRead {τ : Type} (c : Client τ) (w : World τ) :
    NoNewRead w (AcmeVault.makeEngineSlice c w).state :=
  ⟨[ClientCall.MountsListSecretsEngines], by rw [AcmeVault_makeEngineSlice_state],
    by simp [ClientCall.isRead]⟩

theorem AcmeVault_createEngines_noRead {τ : Type} (c : Client τ) (secret : Secret)
    (w : World τ) : NoNewRead w (AcmeVault.createEngines c secret w).state :=
  ⟨[ClientCall.MountsEnableSecretsEngine secret.Engine "kv-v2"],
    AcmeVault_createEngines_log c secret w, by simp [ClientCall.isRead]⟩

theorem AcmeVault_writeSecret_noRead {τ : Type} (c : Client τ) (path : String) (data : GoMap)
    (w : World τ) : NoNewRead w (AcmeVault.writeSecret c path data w).state := by
  refine ⟨[ClientCall.Write path [("data", Value.map data)]], ?_, by simp [ClientCall.isRead]⟩
  unfold AcmeVault.writeSecret
  simp only
  split <;> rfl

theorem InitVault_state_of_resolution {σ : Type} (v : Vaulter σ) (s : List Secret)
    (c : VaultConfig) (sm : SecretMapTable) (st : σ) (s1 : List Secret)
    (hres : (resolutionPass v s c sm st).out = .ret s1) :
    (InitVault v s c sm st).state
      = (CreateDataInVault v s1 (resolutionPass v s c sm st).state).state := by
  unfold InitVault
  rw [Run.bind_state hres]
  generalize CreateDataInVault v s1 (resolutionPass v s c sm st).state = r
  rcases r with ⟨calls, st2, out⟩
  rcases out with (_ | e) | _ | _ <;> simp [Run.bind, Run.pure]

theorem resolutionPass_skip {σ : Type} (v : Vaulter σ) (s : List Secret) (c : VaultConfig)
    (sm : SecretMapTable) (st : σ) (h : c.Legacy = true ∨ c.Copy = false) :
    resolutionPass v s c sm st = Run.pure s st := by
  unfold resolutionPass
  rcases h with h | h <;> simp [h]

theorem InitVault_calls_split {σ : Type} (v : Vaulter σ) (s : List Secret) (c : VaultConfig)
    (sm : SecretMapTable) (st : σ) :
    ∃ rest, (InitVault v s c sm st).calls = (resolutionPass v s c sm st).calls ++ rest ∧
      ∀ call ∈ rest, VCall.isHydrate call = false := by
  cases hout : (resolutionPass v s c sm st).out with
  | ret s1 =>
    refine ⟨_, (InitVault_of_resolution v s c sm st s1 hout).1, ?_⟩
    intro call hmem
    obtain ⟨engines, hp⟩ := CreateDataInVault_calls_initial_any v s1 (resolutionPass v s c sm st).state
    exact expectedCalls_not_hydrate (hp.subset hmem)
  | panic => exact ⟨[], by simp [InitVault, Run.bind, hout], by simp⟩
  | fatal => exact ⟨[], by simp [InitVault, Run.bind, hout], by simp⟩

theorem resolutionPass_run {σ : Type} (v : Vaulter σ) (s : List Secret) (c : VaultConfig)
    (sm : SecretMapTable) (st : σ) (h : c.Legacy = false ∧ c.Copy = true) :
    resolutionPass v s c sm st
      = Run.call (VCall.hydrateNewSecretsStruct s sm) (v.hydrateNewSecretsStruct s sm st) := by
  unfold resolutionPass
  simp [h.1, h.2]

theorem CreateDataInVault_writes_from_input {σ : Type} (v : Vaulter σ) (s : List Secret)
    (st : σ) (path : String) (data : GoMap)
    (hmem : VCall.writeSecret path data ∈ (CreateDataInVault v s st).calls) :
    ∃ secret ∈ s, ∃ kv ∈ secret.Keys,
      path = secret.Engine ++ "/data/" ++ kv.Path ∧ data = kv.Data := by
  obtain ⟨engines, hp⟩ := CreateDataInVault_calls_initial_any v s st
  have h2 := hp.subset hmem
  rw [List.mem_cons] at h2
  rcases h2 with h2 | h2
  · cases h2
  · exact mem_expectedCalls_write h2

/-- C6: `InitVault` invokes `hydrateNewSecretsStruct` (once, first, on the caller's
secrets) exactly when `Legacy` is false and `Copy` is true.  In that case it goes
on as `CreateDataInVault` on the secrets and in the world that the method
returned (and stops with the method's panic or exit if it does not return), so
the writes carry the resolved data.  When `Legacy` is true or `Copy` is false it
is `CreateDataInVault` on the caller's secrets in the caller's world: every write
carries the path and data of a key group of the input, and the requests that the
production implementation adds to the log contain no read. -/
theorem C6_resolution_iff_copy_and_not_legacy {σ τ : Type} (v : Vaulter σ) (cl : Client τ)
    (s : List Secret) (c : VaultConfig) (sm : SecretMapTable) (st : σ) (w : World τ) :
    ((InitVault v s c sm st).calls.filter VCall.isHydrate
        = if c.Legacy = false ∧ c.Copy = true then [VCall.hydrateNewSecretsStruct s sm]
          else [])
    ∧ ((∃ call ∈ (InitVault v s c sm st).calls, VCall.isHydrate call = true)
        ↔ (c.Legacy = false ∧ c.Copy = true))
    ∧ ((c.Legacy = false ∧ c.Copy = true) →
        (∀ s1, (v.hydrateNewSecretsStruct s sm st).out = .ret s1 →
          (InitVault v s c sm st).calls
            = VCall.hydrateNewSecretsStruct s sm ::
                (CreateDataInVault v s1 (v.hydrateNewSecretsStruct s sm st).state).calls
          ∧ (InitVault v s c sm st).state
            = (CreateDataInVault v s1 (v.hydrateNewSecretsStruct s sm st).state).state
          ∧ (InitVault v s c sm st).out
            = (match (CreateDataInVault v s1 (v.hydrateNewSecretsStruct s sm st).state).out with
              | .ret (some e) => .ret ("", some e)
              | .ret none => .ret ("Vault complete", none)
              | .panic => .panic
              | .fatal => .fatal)
          ∧ ∀ path data, VCall.writeSecret path data ∈ (InitVault v s c sm st).calls →
              ∃ secret ∈ s1, ∃ kv ∈ secret.Keys,
                path = secret.Engine ++ "/data/" ++ kv.Path ∧ data = kv.Data)
        ∧ ((v.hydrateNewSecretsStruct s sm st).out = .panic →
            (InitVault v s c sm st).calls = [VCall.hydrateNewSecretsStruct s sm]
            ∧ (InitVault v s c sm st).state = (v.hydrateNewSecretsStruct s sm st).state
            ∧ (InitVault v s c sm st).out = .panic)
        ∧ ((v.hydrateNewSecretsStruct s sm st).out = .fatal →
            (InitVault v s c sm st).calls = [VCall.hydrateNewSecretsStruct s sm]
            ∧ (InitVault v s c sm st).state = (v.hydrateNewSecretsStruct s sm st).state
            ∧ (InitVault v s c sm st).out = .fatal))
    ∧ ((c.Legacy = true ∨ c.Copy = false) →
        (InitVault v s c sm st).calls = (CreateDataInVault v s st).calls
        ∧ (InitVault v s c sm st).state = (CreateDataInVault v s st).state
        ∧ (∀ path data, VCall.writeSecret path data ∈ (InitVault v s c sm st).calls →
          ∃ secret ∈ s, ∃ kv ∈ secret.Keys,
            path = secret.Engine ++ "/data/" ++ kv.Path ∧ data = kv.Data)
        ∧ ∃ new, (InitVault (AcmeVault cl) s c sm w).state.log = w.log ++ new ∧
            ∀ call ∈ new, ClientCall.isRead call = false) := by
  obtain ⟨rest, hcalls, hrest⟩ := InitVault_calls_split v s c sm st
  have hfilter : (InitVault v s c sm st).calls.filter VCall.isHydrate
      = if c.Legacy = false ∧ c.Copy = true then [VCall.hydrateNewSecretsStruct s sm]
        else [] := by
    have hr : rest.filter VCall.isHydrate = [] := by
      rw [List.filter_eq_nil_iff]
      intro call hmem
      simp [hrest call hmem]
    rw [hcalls, List.filter_append, hr, resolutionPass_calls]
    cases c.Legacy <;> cases c.Copy <;> simp [VCall.isHydrate]
  refine ⟨hfilter, ?_, ?_, ?_⟩
  · constructor
    · rintro ⟨call, hmem, hh⟩
      have h2 : call ∈ (InitVault v s c sm st).calls.filter VCall.isHydrate :=
        List.mem_filter.mpr ⟨hmem, hh⟩
      rw [hfilter] at h2
      by_contra hcon
      simp [hcon] at h2
    · intro hcond
      refine ⟨VCall.hydrateNewSecretsStruct s sm, ?_, rfl⟩
      have h2 : VCall.hydrateNewSecretsStruct s sm
          ∈ (InitVault v s c sm st).calls.filter VCall.isHydrate := by
        rw [hfilter]
        simp [hcond]
      exact (List.mem_filter.mp h2).1
  · intro hcond
    have hrp := resolutionPass_run v s c sm st hcond
    refine ⟨?_, ?_, ?_⟩
    · intro s1 hout
      have hres : (resolutionPass v s c sm st).out = .ret s1 := by
        rw [hrp]
        exact hout
      obtain ⟨h1, h2⟩ := InitVault_of_resolution v s c sm st s1 hres
      have h3 := InitVault_state_of_resolution v s c sm st s1 hres
      rw [hrp] at h1 h2 h3
      simp only [Run.call, List.singleton_append] at h1 h2 h3
      refine ⟨h1, h3, h2, ?_⟩
      intro path data hmem
      rw [h1, List.mem_cons] at hmem
      rcases hmem with hmem | hmem
      · cases hmem
      · exact CreateDataInVault_writes_from_input v s1 _ path data hmem
    · intro hout
      simp [InitVault, Run.bind, hrp, Run.call, hout]
    · intro hout
      simp [InitVault, Run.bind, hrp, Run.call, hout]
  · intro hskip
    have hrp := resolutionPass_skip v s c sm st hskip
    have h1 := (InitVault_of_resolution v s c sm st s (by rw [hrp]; rfl)).1
    have h3 := InitVault_state_of_resolution v s c sm st s (by rw [hrp]; rfl)
    rw [hrp] at h1 h3
    simp only [Run.pure, List.nil_append] at h1 h3
    refine ⟨h1, h3, ?_, ?_⟩
    · intro path data hmem
      rw [h1] at hmem
      exact CreateDataInVault_writes_from_input v s st path data hmem
    · have hrp2 := resolutionPass_skip (AcmeVault cl) s c sm w hskip
      have h4 := InitVault_state_of_resolution (AcmeVault cl) s c sm w s (by rw [hrp2]; rfl)
      rw [hrp2] at h4
      simp only [Run.pure] at h4
      rw [h4]
      exact CreateDataInVault_rel NoNewRead NoNewRead.refl
        NoNewRead.trans (AcmeVault cl) (AcmeVault_makeEngineSlice_noRead cl)
        (AcmeVault_createEngines_noRead cl) (AcmeVault_writeSecret_noRead cl) s w

theorem C6_witness :
    ((InitVault (AcmeVault Store.client) [webSecret] ⟨false, true⟩ sampleMap
        ⟨aliceStore, []⟩).calls
      = [VCall.hydrateNewSecretsStruct [webSecret] sampleMap,
          VCall.makeEngineSlice,
          VCall.createEngines
            ⟨"web", [⟨"cfg", [("dbuser", Value.str "alice"), ("plain", Value.str "x")]⟩]⟩,
          VCall.writeSecret "web/data/cfg"
            [("dbuser", Value.str "alice"), ("plain", Value.str "x")]]) ∧
    ((InitVault (AcmeVault Store.client) [webSecret] ⟨false, true⟩ sampleMap
        ⟨aliceStore, []⟩).state.log
      = [ClientCall.Read "app/data/db",
          ClientCall.MountsListSecretsEngines,
          ClientCall.MountsEnableSecretsEngine "web" "kv-v2",
          ClientCall.Write "web/data/cfg"
            [("data", Value.map [("dbuser", Value.str "alice"), ("plain", Value.str "x")])]]) ∧
    ((InitVault (AcmeVault Store.client) [webSecret] ⟨true, true⟩ sampleMap
        ⟨aliceStore, []⟩).calls
      = [VCall.makeEngineSlice, VCall.createEngines webSecret,
          VCall.writeSecret "web/data/cfg"
            [("dbuser", Value.str "to be resolved"), ("plain", Value.str "x")]]) :=
  ⟨((C6_resolution_iff_copy_and_not_legacy (AcmeVault Store.client) Store.client [webSecret]
      ⟨false, true⟩ sampleMap ⟨aliceStore, []⟩ ⟨aliceStore, []⟩).2.2.1 ⟨rfl, rfl⟩).1
        [⟨"web", [⟨"cfg", [("dbuser", Value.str "alice"), ("plain", Value.str "x")]⟩]⟩]
        rfl |>.1,
    congrArg World.log
      (((C6_resolution_iff_copy_and_not_legacy (AcmeVault Store.client) Store.client
        [webSecret] ⟨false, true⟩ sampleMap ⟨aliceStore, []⟩ ⟨aliceStore, []⟩).2.2.1
          ⟨rfl, rfl⟩).1
        [⟨"web", [⟨"cfg", [("dbuser", Value.str "alice"), ("plain", Value.str "x")]⟩]⟩]
        rfl |>.2.1),
    ((C6_resolution_iff_copy_and_not_legacy (AcmeVault Store.client) Store.client [webSecret]
      ⟨true, true⟩ sampleMap ⟨aliceStore, []⟩ ⟨aliceStore, []⟩).2.2.2 (Or.inl rfl)).1⟩

/-! ## Claims on `ReadSecret` -/

/-- C8: `ReadSecret` returns "error reading secret" when the store read returns an
error, and "response data for <field> secret not ok" when the entry "data" of the
response is missing or is not a map. -/
theorem C8_read_failures_give_placeholders {τ : Type} (c : Client τ) (path secret : String)
    (w : World τ) :
    (∀ err, c.Read w.store path = .error err →
        (ReadSecret c path secret w).out = .ret "error reading secret") ∧
    (∀ response, c.Read w.store path = .ok (some response) →
        (response.Data.lookup "data" = none ∨
          ∃ x, response.Data.lookup "data" = some x ∧ ∀ data, x ≠ Value.map data) →
        (ReadSecret c path secret w).out
          = .ret ("response data for " ++ secret ++ " secret not ok")) := by
  constructor
  · intro err h
    simp [ReadSecret, h]
  · intro response h hdata
    rcases hdata with hd | ⟨x, hd, hx⟩
    · simp [ReadSecret, h, GoMap.get, hd]
    · cases x with
      | map data => exact absurd rfl (hx data)
      | nil => simp [ReadSecret, h, GoMap.get, hd]
      | str _ => simp [ReadSecret, h, GoMap.get, hd]
      | other _ => simp [ReadSecret, h, GoMap.get, hd]

/-- C10: when the store read succeeds and the entry "data" of the response is a
map, `ReadSecret` returns the value stored under the requested field if it is a
string, and panics (returning no placeholder) if the field is absent or its value
is not a string. -/
theorem C10_unchecked_field_assertion {τ : Type} (c : Client τ) (path secret : String)
    (w : World τ) (response : Response) (data : GoMap)
    (hread : c.Read w.store path = .ok (some response))
    (hdata : response.Data.lookup "data" = some (Value.map data)) :
    (∀ value, data.lookup secret = some (Value.str value) →
        (ReadSecret c path secret w).out = .ret value) ∧
    ((data.lookup secret = none ∨
        ∃ x, data.lookup secret = some x ∧ ∀ value, x ≠ Value.str value) →
        (ReadSecret c path secret w).out = .panic) := by
  constructor
  · intro value h
    simp [ReadSecret, hread, GoMap.get, hdata, h]
  · intro h
    rcases h with h | ⟨x, h, hx⟩
    · simp [ReadSecret, hread, GoMap.get, hdata, h]
    · cases x with
      | str value => exact absurd rfl (hx value)
      | nil => simp [ReadSecret, hread, GoMap.get, hdata, h]
      | map _ => simp [ReadSecret, hread, GoMap.get, hdata, h]
      | other _ => simp [ReadSecret, hread, GoMap.get, hdata, h]

theorem C10_witness :
    ((ReadSecret Store.client "app/data/db" "user" ⟨aliceStore, []⟩).out = .ret "alice") ∧
    ((ReadSecret Store.client "app/data/db" "password" ⟨aliceStore, []⟩).out = .panic) :=
  ⟨(C10_unchecked_field_assertion Store.client "app/data/db" "user" ⟨aliceStore, []⟩
      ⟨[("data", Value.map [("user", Value.str "alice")])]⟩ [("user", Value.str "alice")]
      rfl rfl).1 "alice" rfl,
    (C10_unchecked_field_assertion Store.client "app/data/db" "password" ⟨aliceStore, []⟩
      ⟨[("data", Value.map [("user", Value.str "alice")])]⟩ [("user", Value.str "alice")]
      rfl rfl).2 (Or.inl rfl)⟩

/-! ## The resolution pass -/

theorem Res.bind_of_ret {σ α β : Type} {r : Res σ α} {k : α → σ → Res σ β} {a : α}
    (h : r.out = .ret a) : r.bind k = k a r.state := by
  unfold Res.bind
  simp [h]

theorem ReadSecret_state {τ : Type} (c : Client τ) (path secret : String) (w : World τ) :
    (ReadSecret c path secret w).state = ⟨w.store, w.log ++ [ClientCall.Read path]⟩ := by
  unfold ReadSecret
  simp only
  split
  · rfl
  · rfl
  · split
    · split <;> rfl
    · rfl

theorem ReadSecret_out_congr {τ : Type} (c : Client τ) (path secret : String)
    (w w1 : World τ) (h : w.store = w1.store) :
    (ReadSecret c path secret w).out = (ReadSecret c path secret w1).out := by
  unfold ReadSecret
  simp only [h]
  split
  · rfl
  · rfl
  · split
    · split <;> rfl
    · rfl

theorem lookup_isSome_of_mem_keys (m : GoMap) (key : String) (h : key ∈ GoMap.keys m) :
    (m.lookup key).isSome = true := by
  induction m with
  | nil => simp [GoMap.keys] at h
  | cons e rest ih =>
    obtain ⟨k, v⟩ := e
    by_cases hk : key = k
    · subst hk
      simp [List.lookup]
    · have hne : (key == k) = false := by simpa using hk
      have hrest : key ∈ GoMap.keys rest := by
        simp only [GoMap.keys, List.map_cons, List.mem_cons] at h
        rcases h with h | h
        · exact absurd h hk
        · exact h
      simp only [List.lookup, hne]
      exact ih hrest

theorem GoMap.set_of_mem (m : GoMap) (key : String) (v : Value) (h : key ∈ GoMap.keys m) :
    GoMap.set m key v = m.map (fun e => if e.1 = key then (e.1, v) else e) := by
  unfold GoMap.set
  rw [if_pos (lookup_isSome_of_mem_keys m key h)]
  apply List.map_congr_left
  intro e _
  by_cases hk : e.1 = key <;> simp [hk]

theorem GoMap.keys_map_fst (m : GoMap) (f : String × Value → String × Value)
    (hf : ∀ e, (f e).1 = e.1) : GoMap.keys (m.map f) = GoMap.keys m := by
  unfold GoMap.keys
  rw [List.map_map]
  apply List.map_congr_left
  intro e _
  exact hf e

theorem hydrateKeys_spec {τ : Type} (c : Client τ) (sm : SecretMapTable) (w0 : World τ)
    (ks : List String) :
    ∀ (data : GoMap) (w : World τ), w.store = w0.store →
      (∀ key ∈ ks, key ∈ GoMap.keys data) →
      (∀ key ∈ ks, (SecretMapTable.get sm key).path ≠ "" →
        ∃ value, (ReadSecret c (SecretMapTable.get sm key).path
          (SecretMapTable.get sm key).secret w0).out = .ret value) →
      (hydrateKeys c sm ks data w).out = .ret (resolveSome c sm w0 ks data) ∧
      (hydrateKeys c sm ks data w).state.store = w0.store := by
  induction ks with
  | nil =>
    intro data w hw _ _
    refine ⟨?_, hw⟩
    simp [hydrateKeys, resolveSome]
  | cons key rest ih =>
    intro data w hw hkeys hread
    have hrest_read : ∀ k ∈ rest, (SecretMapTable.get sm k).path ≠ "" →
        ∃ value, (ReadSecret c (SecretMapTable.get sm k).path
          (SecretMapTable.get sm k).secret w0).out = .ret value :=
      fun k hk => hread k (List.mem_cons_of_mem _ hk)
    by_cases hp : (SecretMapTable.get sm key).path = ""
    · have hstep : hydrateKeys c sm (key :: rest) data w = hydrateKeys c sm rest data w := by
        simp [hydrateKeys, hp]
      rw [hstep]
      obtain ⟨h1, h2⟩ := ih data w hw (fun k hk => hkeys k (List.mem_cons_of_mem _ hk))
        hrest_read
      refine ⟨?_, h2⟩
      rw [h1]
      congr 1
      unfold resolveSome
      apply List.map_congr_left
      intro e _
      by_cases hek : e.1 = key
      · have hf : resolveField c sm w0 e.1 e.2 = e.2 := by
          simp [resolveField, hek, hp]
        simp only [hf, Prod.mk.eta, ite_self]
      · simp [hek]
    · obtain ⟨value, hval⟩ := hread key (List.mem_cons_self _ _) hp
      have hval1 : (ReadSecret c (SecretMapTable.get sm key).path
          (SecretMapTable.get sm key).secret w).out = .ret value := by
        rw [ReadSecret_out_congr c _ _ w w0 hw]
        exact hval
      have hstep : hydrateKeys c sm (key :: rest) data w
          = hydrateKeys c sm rest (GoMap.set data key (Value.str value))
              (ReadSecret c (SecretMapTable.get sm key).path
                (SecretMapTable.get sm key).secret w).state := by
        simp only [hydrateKeys]
        rw [if_pos (by simpa using hp), Res.bind_of_ret hval1]
      have hset := GoMap.set_of_mem data key (Value.str value)
        (hkeys key (List.mem_cons_self _ _))
      have hk1 : GoMap.keys (GoMap.set data key (Value.str value)) = GoMap.keys data := by
        rw [hset]
        apply GoMap.keys_map_fst
        intro e
        by_cases hek : e.1 = key <;> simp [hek]
      rw [hstep]
      obtain ⟨h1, h2⟩ := ih (GoMap.set data key (Value.str value))
        (ReadSecret c (SecretMapTable.get sm key).path (SecretMapTable.get sm key).secret w).state
        (by rw [ReadSecret_state]; exact hw)
        (fun k hk => by rw [hk1]; exact hkeys k (List.mem_cons_of_mem _ hk)) hrest_read
      refine ⟨?_, h2⟩
      rw [h1, hset]
      congr 1
      unfold resolveSome
      rw [List.map_map]
      apply List.map_congr_left
      intro e _
      have hfk : ∀ x, resolveField c sm w0 key x = Value.str value := by
        intro x
        simp [resolveField, hp, hval]
      by_cases hek : e.1 = key
      · by_cases hkr : key ∈ rest
        · simp [hek, hkr, hfk]
        · simp [hek, hkr, hfk]
      · simp [hek]

theorem resolveSome_all_keys {τ : Type} (c : Client τ) (sm : SecretMapTable) (w : World τ)
    (data : GoMap) : resolveSome c sm w (GoMap.keys data) data = resolveData c sm w data := by
  unfold resolveSome resolveData
  apply List.map_congr_left
  intro e he
  have : e.1 ∈ GoMap.keys data := List.mem_map_of_mem Prod.fst he
  simp [this]

theorem hydrateKVs_spec {τ : Type} (c : Client τ) (sm : SecretMapTable) (w0 : World τ)
    (keys : List KV) :
    ∀ w : World τ, w.store = w0.store →
      (∀ kv ∈ keys, ∀ key ∈ GoMap.keys kv.Data, (SecretMapTable.get sm key).path ≠ "" →
        ∃ value, (ReadSecret c (SecretMapTable.get sm key).path
          (SecretMapTable.get sm key).secret w0).out = .ret value) →
      (hydrateKVs c sm keys w).out
        = .ret (keys.map (fun kv => ⟨kv.Path, resolveData c sm w0 kv.Data⟩)) ∧
      (hydrateKVs c sm keys w).state.store = w0.store := by
  induction keys with
  | nil =>
    intro w hw _
    exact ⟨rfl, hw⟩
  | cons kv rest ih =>
    intro w hw hread
    obtain ⟨h1, h2⟩ := hydrateKeys_spec c sm w0 (GoMap.keys kv.Data) kv.Data w hw
      (fun _ hk => hk) (hread kv (List.mem_cons_self _ _))
    obtain ⟨h3, h4⟩ := ih (hydrateKeys c sm (GoMap.keys kv.Data) kv.Data w).state h2
      (fun kv1 hk1 => hread kv1 (List.mem_cons_of_mem _ hk1))
    simp only [hydrateKVs]
    rw [Res.bind_of_ret h1, Res.bind_of_ret h3, resolveSome_all_keys]
    exact ⟨rfl, h4⟩

theorem hydrateNewSecretsStruct_spec {τ : Type} (c : Client τ) (sm : SecretMapTable)
    (w0 : World τ) (s : List Secret) :
    ∀ w : World τ, w.store = w0.store →
      (∀ secret ∈ s, ∀ kv ∈ secret.Keys, ∀ key ∈ GoMap.keys kv.Data,
        (SecretMapTable.get sm key).path ≠ "" →
        ∃ value, (ReadSecret c (SecretMapTable.get sm key).path
          (SecretMapTable.get sm key).secret w0).out = .ret value) →
      (AcmeVault.hydrateNewSecretsStruct c s sm w).out = .ret (resolveSecrets c sm w0 s) ∧
      (AcmeVault.hydrateNewSecretsStruct c s sm w).state.store = w0.store := by
  induction s with
  | nil =>
    intro w hw _
    exact ⟨rfl, hw⟩
  | cons secret rest ih =>
    intro w hw hread
    obtain ⟨h1, h2⟩ := hydrateKVs_spec c sm w0 secret.Keys w hw
      (hread secret (List.mem_cons_self _ _))
    obtain ⟨h3, h4⟩ := ih (hydrateKVs c sm secret.Keys w).state h2
      (fun s1 hs1 => hread s1 (List.mem_cons_of_mem _ hs1))
    simp only [AcmeVault.hydrateNewSecretsStruct]
    rw [Res.bind_of_ret h1, Res.bind_of_ret h3]
    exact ⟨rfl, h4⟩

theorem lookup_resolveData {τ : Type} (c : Client τ) (sm : SecretMapTable) (w : World τ)
    (data : GoMap) (key : String) :
    (resolveData c sm w data).lookup key = (data.lookup key).map (resolveField c sm w key) := by
  induction data with
  | nil => rfl
  | cons e rest ih =>
    obtain ⟨k, v⟩ := e
    unfold resolveData at ih ⊢
    by_cases hk : key = k
    · subst hk
      simp [List.lookup]
    · have hne : (key == k) = false := by simpa using hk
      simp only [List.map_cons, List.lookup, hne]
      exact ih

/-- C7: provided every read needed for a mapped field returns, the production
`hydrateNewSecretsStruct` returns the secrets with every key group's data
resolved field by field: the field names of each key group are unchanged; a field
whose name has a map entry with a non-empty path holds the string returned by
`ReadSecret` on that entry's path and secret; a field whose name has no entry, or
an entry with an empty path, holds its original value. -/
theorem C7_hydrate_resolves_mapped_fields {τ : Type} (c : Client τ) (s : List Secret)
    (sm : SecretMapTable) (w : World τ)
    (hread : ∀ secret ∈ s, ∀ kv ∈ secret.Keys, ∀ key ∈ GoMap.keys kv.Data,
      (SecretMapTable.get sm key).path ≠ "" →
      ∃ value, (ReadSecret c (SecretMapTable.get sm key).path
        (SecretMapTable.get sm key).secret w).out = .ret value) :
    (AcmeVault.hydrateNewSecretsStruct c s sm w).out
        = .ret (s.map (fun secret => ⟨secret.Engine,
            secret.Keys.map (fun kv => ⟨kv.Path, resolveData c sm w kv.Data⟩)⟩))
    ∧ (∀ data, GoMap.keys (resolveData c sm w data) = GoMap.keys data)
    ∧ (∀ data key e value, sm.lookup key = some e → e.path ≠ "" →
        (ReadSecret c e.path e.secret w).out = .ret value → key ∈ GoMap.keys data →
        GoMap.get (resolveData c sm w data) key = Value.str value)
    ∧ (∀ data key, (sm.lookup key = none ∨ ∃ e, sm.lookup key = some e ∧ e.path = "") →
        GoMap.get (resolveData c sm w data) key = GoMap.get data key) := by
  refine ⟨(hydrateNewSecretsStruct_spec c sm w s w rfl hread).1, ?_, ?_, ?_⟩
  · intro data
    exact GoMap.keys_map_fst data _ (fun _ => rfl)
  · intro data key e value he hp hval hkey
    have hget : SecretMapTable.get sm key = e := by simp [SecretMapTable.get, he]
    have hf : ∀ x, resolveField c sm w key x = Value.str value := by
      intro x
      simp [resolveField, hget, hp, hval]
    have hsome := lookup_isSome_of_mem_keys data key hkey
    obtain ⟨v0, hv0⟩ := Option.isSome_iff_exists.mp hsome
    simp [GoMap.get, lookup_resolveData, hv0, hf]
  · intro data key hk
    have hpath : (SecretMapTable.get sm key).path = "" := by
      rcases hk with hk | ⟨e, hk, hp⟩
      · simp [SecretMapTable.get, hk]
      · simp [SecretMapTable.get, hk, hp]
    have hf : ∀ x, resolveField c sm w key x = x := by
      intro x
      simp [resolveField, hpath]
    cases hl : data.lookup key <;> simp [GoMap.get, lookup_resolveData, hl, hf]

theorem C7_witness :
    (AcmeVault.hydrateNewSecretsStruct Store.client [webSecret] sampleMap ⟨aliceStore, []⟩).out
      = .ret [⟨"web", [⟨"cfg", [("dbuser", Value.str "alice"), ("plain", Value.str "x")]⟩]⟩] :=
  (C7_hydrate_resolves_mapped_fields Store.client [webSecret] sampleMap ⟨aliceStore, []⟩
    (by
      intro secret hs kv hk key hkey hp
      simp only [List.mem_singleton] at hs
      subst hs
      simp only [webSecret, List.mem_singleton] at hk
      subst hk
      simp only [GoMap.keys, List.map_cons, List.map_nil, List.mem_cons, List.mem_singleton,
        List.not_mem_nil, or_false] at hkey
      rcases hkey with h | h
      · subst h
        exact ⟨"alice", rfl⟩
      · subst h
        exact absurd rfl hp)).1

/-! ## Replaying the calls of a run -/

theorem Vaulter.replay_append {σ : Type} (v : Vaulter σ) (st : σ) (A B : List VCall) :
    v.replay st (A ++ B) = v.replay (v.replay st A) B := by
  simp [Vaulter.replay, List.foldl_append]

theorem writeKeys_state {σ : Type} (v : Vaulter σ) (hv : v.Returns) (engine : String)
    (keys : List KV) (st : σ) :
    (writeKeys v engine keys st).state = v.replay st (writeCalls engine keys) := by
  induction keys generalizing st with
  | nil => rfl
  | cons kv rest ih =>
    obtain ⟨r, hr⟩ := hv.2 (engine ++ "/data/" ++ kv.Path) kv.Data st
    have h : (Run.call (.writeSecret (engine ++ "/data/" ++ kv.Path) kv.Data)
        (v.writeSecret (engine ++ "/data/" ++ kv.Path) kv.Data st)).out = .ret r := hr
    show (Run.bind _ _).state = _
    rw [Run.bind_state h, ih]
    rfl

theorem provisionSecret_state {σ : Type} (v : Vaulter σ) (hv : v.Returns)
    (engines : List String) (secret : Secret) (st : σ) :
    (provisionSecret v engines secret st).state = v.replay st (secretCalls engines secret) := by
  unfold provisionSecret secretCalls
  by_cases hc : secret.Engine ++ "/" ∈ engines
  · simpa [hc] using writeKeys_state v hv secret.Engine secret.Keys st
  · obtain ⟨r, hr⟩ := hv.1 secret st
    have h1 : (Run.call (.createEngines secret) (v.createEngines secret st)).out = .ret r := hr
    have hb : engines.contains (secret.Engine ++ "/") = false := by simpa using hc
    simp only [hb, Bool.not_false, if_true, Bool.false_eq_true, if_false]
    rw [Run.bind_state h1, writeKeys_state v hv]
    rfl

theorem provisionAll_state {σ : Type} (v : Vaulter σ) (hv : v.Returns)
    (engines : List String) (s : List Secret) (st : σ) :
    (provisionAll v engines s st).state = v.replay st (expectedCalls engines s) := by
  induction s generalizing st with
  | nil => rfl
  | cons secret rest ih =>
    show (Run.bind _ _).state = _
    rw [Run.bind_state (provisionSecret_returns v hv engines secret st), ih,
      provisionSecret_state v hv]
    unfold expectedCalls
    rw [List.flatMap_cons, Vaulter.replay_append]

/-! ## The production implementation on the reference store -/

theorem store_makeEngineSlice (w : World Store) :
    (AcmeVault Store.client).makeEngineSlice w
      = ⟨.ret (w.store.mounts, none), ⟨w.store, w.log ++ [ClientCall.MountsListSecretsEngines]⟩⟩ := by
  simp [AcmeVault, AcmeVault.makeEngineSlice, AcmeVault.GetSecretEngine, Store.client, Res.bind,
    GoMap.keys, Function.comp_def]

theorem store_replay_cons (w : World Store) (call : VCall) (rest : List VCall) :
    (AcmeVault Store.client).replay w (call :: rest)
      = (AcmeVault Store.client).replay ((AcmeVault Store.client).step w call) rest := rfl

theorem store_replay_log (calls : List VCall) :
    ∀ w : World Store, (∀ call ∈ calls, VCall.isHydrate call = false) →
      ((AcmeVault Store.client).replay w calls).log = w.log ++ calls.flatMap VCall.requests := by
  induction calls with
  | nil => intro w _; simp [Vaulter.replay]
  | cons call rest ih =>
    intro w hno
    rw [store_replay_cons, ih _ (fun c hc => hno c (List.mem_cons_of_mem _ hc)),
      List.flatMap_cons, ← List.append_assoc]
    congr 1
    cases call with
    | makeEngineSlice => rw [Vaulter.step, store_makeEngineSlice]; rfl
    | createEngines secret => rfl
    | writeSecret path data => rfl
    | hydrateNewSecretsStruct s sm => simpa [VCall.isHydrate] using hno _ (List.mem_cons_self _ _)

theorem store_step_mounts_mono (w : World Store) (call : VCall)
    (hno : VCall.isHydrate call = false) (m : String) (hm : m ∈ w.store.mounts) :
    m ∈ ((AcmeVault Store.client).step w call).store.mounts := by
  cases call with
  | makeEngineSlice => rw [Vaulter.step, store_makeEngineSlice]; exact hm
  | createEngines secret =>
    show m ∈ (if w.store.mounts.contains (secret.Engine ++ "/") then w.store.mounts
      else w.store.mounts ++ [secret.Engine ++ "/"])
    split
    · exact hm
    · exact List.mem_append_left _ hm
  | writeSecret path data => exact hm
  | hydrateNewSecretsStruct s sm => simp [VCall.isHydrate] at hno

theorem store_replay_mounts_mono (calls : List VCall) :
    ∀ w : World Store, (∀ call ∈ calls, VCall.isHydrate call = false) →
      ∀ m ∈ w.store.mounts, m ∈ ((AcmeVault Store.client).replay w calls).store.mounts := by
  induction calls with
  | nil => intro w _ m hm; exact hm
  | cons call rest ih =>
    intro w hno m hm
    rw [store_replay_cons]
    exact ih _ (fun c hc => hno c (List.mem_cons_of_mem _ hc)) m
      (store_step_mounts_mono w call (hno call (List.mem_cons_self _ _)) m hm)

theorem store_replay_mounts_create (calls : List VCall) :
    ∀ w : World Store, (∀ call ∈ calls, VCall.isHydrate call = false) →
      ∀ secret, VCall.createEngines secret ∈ calls →
        secret.Engine ++ "/" ∈ ((AcmeVault Store.client).replay w calls).store.mounts := by
  induction calls with
  | nil => intro w _ secret h; simp at h
  | cons call rest ih =>
    intro w hno secret hmem
    have hrest : ∀ c ∈ rest, VCall.isHydrate c = false :=
      fun c hc => hno c (List.mem_cons_of_mem _ hc)
    rw [store_replay_cons]
    rcases List.mem_cons.mp hmem with h | h
    · subst h
      apply store_replay_mounts_mono rest _ hrest
      show secret.Engine ++ "/" ∈ (if w.store.mounts.contains (secret.Engine ++ "/")
        then w.store.mounts else w.store.mounts ++ [secret.Engine ++ "/"])
      split
      · rename_i hc
        simpa using hc
      · simp
    · exact ih _ hrest secret h

theorem store_replay_mounts_same (calls : List VCall) :
    ∀ w : World Store, (∀ call ∈ calls, VCall.isWrite call = true) →
      ((AcmeVault Store.client).replay w calls).store.mounts = w.store.mounts := by
  induction calls with
  | nil => intro w _; rfl
  | cons call rest ih =>
    intro w hw
    rw [store_replay_cons, ih _ (fun c hc => hw c (List.mem_cons_of_mem _ hc))]
    have h := hw call (List.mem_cons_self _ _)
    cases call with
    | writeSecret path data => rfl
    | makeEngineSlice => simp [VCall.isWrite] at h
    | createEngines secret => simp [VCall.isWrite] at h
    | hydrateNewSecretsStruct s sm => simp [VCall.isWrite] at h

theorem store_replay_kv (calls : List VCall) :
    ∀ w : World Store, (∀ call ∈ calls, VCall.isHydrate call = false) → ∀ p,
      ((AcmeVault Store.client).replay w calls).store.kv p
        = match lastBody calls p with
          | some b => some b
          | none => w.store.kv p := by
  induction calls with
  | nil => intro w _ p; rfl
  | cons call rest ih =>
    intro w hno p
    rw [store_replay_cons, ih _ (fun c hc => hno c (List.mem_cons_of_mem _ hc)) p]
    simp only [lastBody]
    cases hl : lastBody rest p with
    | some b => rfl
    | none =>
      simp only
      cases call with
      | makeEngineSlice => rw [Vaulter.step, store_makeEngineSlice]
      | createEngines secret => rfl
      | writeSecret path data =>
        show (if (p == path) = true then some [("data", Value.map data)] else w.store.kv p) = _
        by_cases hp : (p == path) = true <;> simp [hp]
      | hydrateNewSecretsStruct s sm =>
        simpa [VCall.isHydrate] using hno _ (List.mem_cons_self _ _)

theorem lastBody_filter_isWrite (calls : List VCall) (p : String) :
    lastBody (calls.filter VCall.isWrite) p = lastBody calls p := by
  induction calls with
  | nil => rfl
  | cons call rest ih =>
    cases call with
    | writeSecret path data =>
      simp only [List.filter_cons, VCall.isWrite, if_true, lastBody, ih]
    | makeEngineSlice =>
      simp only [List.filter_cons, VCall.isWrite, Bool.false_eq_true, if_false, lastBody, ih]
      cases lastBody rest p <;> rfl
    | createEngines secret =>
      simp only [List.filter_cons, VCall.isWrite, Bool.false_eq_true, if_false, lastBody, ih]
      cases lastBody rest p <;> rfl
    | hydrateNewSecretsStruct s sm =>
      simp only [List.filter_cons, VCall.isWrite, Bool.false_eq_true, if_false, lastBody, ih]
      cases lastBody rest p <;> rfl

theorem requests_filter_isWrite (calls : List VCall) :
    (calls.flatMap VCall.requests).filter ClientCall.isWrite
      = (calls.filter VCall.isWrite).flatMap VCall.requests := by
  induction calls with
  | nil => rfl
  | cons call rest ih =>
    rw [List.flatMap_cons, List.filter_append, ih]
    cases call <;> simp [VCall.requests, VCall.isWrite, ClientCall.isWrite, List.filter_cons]

theorem expectedCalls_not_hydrate_tail {engines : List String} {s : List Secret} {call : VCall}
    (h : call ∈ expectedCalls engines s) : VCall.isHydrate call = false :=
  expectedCalls_not_hydrate (List.mem_cons_of_mem _ h)

theorem expectedCalls_all_listed (engines : List String) (s : List Secret)
    (h : ∀ secret ∈ s, secret.Engine ++ "/" ∈ engines) :
    expectedCalls engines s = s.flatMap (fun secret => writeCalls secret.Engine secret.Keys) := by
  induction s with
  | nil => rfl
  | cons secret rest ih =>
    unfold expectedCalls at ih ⊢
    rw [List.flatMap_cons, List.flatMap_cons, ih (fun x hx => h x (List.mem_cons_of_mem _ hx))]
    simp [secretCalls, h secret (List.mem_cons_self _ _)]

theorem writeCalls_isWrite (s : List Secret) :
    ∀ call ∈ s.flatMap (fun secret => writeCalls secret.Engine secret.Keys),
      VCall.isWrite call = true := by
  intro call hmem
  rw [List.mem_flatMap] at hmem
  obtain ⟨secret, -, h⟩ := hmem
  simp only [writeCalls, List.mem_map] at h
  obtain ⟨kv, -, h⟩ := h
  subst h
  rfl

theorem store_InitVault (s : List Secret) (c : VaultConfig) (sm : SecretMapTable)
    (w : World Store) (hc : c.Legacy = true ∨ c.Copy = false) :
    (InitVault (AcmeVault Store.client) s c sm w).out = .ret ("Vault complete", none) ∧
    (InitVault (AcmeVault Store.client) s c sm w).calls
      = VCall.makeEngineSlice :: expectedCalls w.store.mounts s ∧
    (InitVault (AcmeVault Store.client) s c sm w).state
      = (AcmeVault Store.client).replay ⟨w.store, w.log ++ [ClientCall.MountsListSecretsEngines]⟩
          (expectedCalls w.store.mounts s) := by
  have hrp := resolutionPass_skip (AcmeVault Store.client) s c sm w hc
  have hres : (resolutionPass (AcmeVault Store.client) s c sm w).out = .ret s := by
    rw [hrp]; rfl
  obtain ⟨h1, h2⟩ := InitVault_of_resolution (AcmeVault Store.client) s c sm w s hres
  have h3 := InitVault_state_of_resolution (AcmeVault Store.client) s c sm w s hres
  rw [hrp] at h1 h2 h3
  simp only [Run.pure, List.nil_append] at h1 h2 h3
  have hm := store_makeEngineSlice w
  refine ⟨?_, ?_, ?_⟩
  · rw [h2, CreateDataInVault_out _ s w _ _ hm
      (provisionAll_returns _ AcmeVault_store_returns _ s _)]
  · rw [h1, CreateDataInVault_calls_eq _ AcmeVault_store_returns s w _ _ hm]
  · rw [h3, CreateDataInVault_state _ s w _ _ hm,
      provisionAll_state _ AcmeVault_store_returns]

/-- C9: on the reference store, with the resolution pass disabled, a second run of
`InitVault` with the same input on the store left by the first run issues no
create-engine call (and sends no enable request), issues the same writes in the
same order as the first run, and leaves the store as the first run left it. -/
theorem C9_second_run_changes_nothing (s : List Secret) (c : VaultConfig)
    (sm : SecretMapTable) (st0 : Store) (hc : c.Legacy = true ∨ c.Copy = false) :
    (InitVault (AcmeVault Store.client) s c sm ⟨st0, []⟩).out
        = .ret ("Vault complete", none)
    ∧ (InitVault (AcmeVault Store.client) s c sm
        ⟨(InitVault (AcmeVault Store.client) s c sm ⟨st0, []⟩).state.store, []⟩).out
        = .ret ("Vault complete", none)
    ∧ (InitVault (AcmeVault Store.client) s c sm
        ⟨(InitVault (AcmeVault Store.client) s c sm ⟨st0, []⟩).state.store, []⟩).calls.filter
          VCall.isCreate = []
    ∧ (InitVault (AcmeVault Store.client) s c sm
        ⟨(InitVault (AcmeVault Store.client) s c sm ⟨st0, []⟩).state.store, []⟩).state.log.filter
          ClientCall.isEnable = []
    ∧ (InitVault (AcmeVault Store.client) s c sm
        ⟨(InitVault (AcmeVault Store.client) s c sm ⟨st0, []⟩).state.store, []⟩).calls.filter
          VCall.isWrite
        = (InitVault (AcmeVault Store.client) s c sm ⟨st0, []⟩).calls.filter VCall.isWrite
    ∧ (InitVault (AcmeVault Store.client) s c sm
        ⟨(InitVault (AcmeVault Store.client) s c sm ⟨st0, []⟩).state.store, []⟩).state.log.filter
          ClientCall.isWrite
        = (InitVault (AcmeVault Store.client) s c sm ⟨st0, []⟩).state.log.filter
            ClientCall.isWrite
    ∧ (InitVault (AcmeVault Store.client) s c sm
        ⟨(InitVault (AcmeVault Store.client) s c sm ⟨st0, []⟩).state.store, []⟩).state.store
        = (InitVault (AcmeVault Store.client) s c sm ⟨st0, []⟩).state.store := by
  obtain ⟨o1, c1, s1⟩ := store_InitVault s c sm ⟨st0, []⟩ hc
  generalize hr1 : InitVault (AcmeVault Store.client) s c sm ⟨st0, []⟩ = r1 at o1 c1 s1 ⊢
  obtain ⟨o2, c2, s2⟩ := store_InitVault s c sm ⟨r1.state.store, []⟩ hc
  generalize hr2 : InitVault (AcmeVault Store.client) s c sm ⟨r1.state.store, []⟩ = r2
    at o2 c2 s2 ⊢
  simp only [List.nil_append] at s1 s2 c1 c2
  -- every engine of the input is mounted after the first run
  have hmounted : ∀ secret ∈ s, secret.Engine ++ "/" ∈ r1.state.store.mounts := by
    intro secret hs
    rw [s1]
    by_cases hin : secret.Engine ++ "/" ∈ st0.mounts
    · exact store_replay_mounts_mono _ _ (fun _ h => expectedCalls_not_hydrate_tail h) _ hin
    · apply store_replay_mounts_create _ _ (fun _ h => expectedCalls_not_hydrate_tail h)
      rw [expectedCalls, List.mem_flatMap]
      exact ⟨secret, hs, by simp [secretCalls, hin]⟩
  have hW := expectedCalls_all_listed r1.state.store.mounts s hmounted
  have hw1 := expectedCalls_filter_isWrite st0.mounts s
  rw [hW] at c2 s2
  have hallw := writeCalls_isWrite s
  have hnoh : ∀ call ∈ s.flatMap (fun secret => writeCalls secret.Engine secret.Keys),
      VCall.isHydrate call = false := by
    intro call h
    have := hallw call h
    cases call <;> simp_all [VCall.isWrite, VCall.isHydrate]
  refine ⟨o1, o2, ?_, ?_, ?_, ?_, ?_⟩
  · rw [c2, List.filter_cons, List.filter_eq_nil_iff.mpr]
    · rfl
    · intro call h
      have := hallw call h
      cases call <;> simp_all [VCall.isWrite, VCall.isCreate]
  · rw [s2, store_replay_log _ _ hnoh, List.filter_eq_nil_iff]
    intro call h
    simp only [List.nil_append, List.singleton_append, List.mem_cons] at h
    rcases h with h | h
    · subst h
      simp [ClientCall.isEnable]
    · obtain ⟨vc, hvc, h⟩ := List.mem_flatMap.mp h
      have := hallw vc hvc
      cases vc <;> simp_all [VCall.isWrite, VCall.requests, ClientCall.isEnable]
  · rw [c2, c1, List.filter_cons, List.filter_cons, hw1, List.filter_eq_self.mpr hallw]
  · rw [s2, s1, store_replay_log _ _ hnoh,
      store_replay_log _ _ (fun _ h => expectedCalls_not_hydrate_tail h)]
    simp only [List.filter_append, requests_filter_isWrite, hw1,
      List.filter_eq_self.mpr hallw]
  · have hm : r2.state.store.mounts = r1.state.store.mounts := by
      rw [s2]
      exact store_replay_mounts_same _ _ hallw
    have hk : r2.state.store.kv = r1.state.store.kv := by
      funext p
      have h2 := store_replay_kv _ ⟨r1.state.store, [ClientCall.MountsListSecretsEngines]⟩
        hnoh p
      rw [← s2] at h2
      have h1 := store_replay_kv _ ⟨st0, [ClientCall.MountsListSecretsEngines]⟩
        (fun _ h => @expectedCalls_not_hydrate_tail st0.mounts s _ h) p
      rw [← s1, ← lastBody_filter_isWrite, hw1] at h1
      rw [h2]
      cases hl : lastBody (s.flatMap fun secret => writeCalls secret.Engine secret.Keys) p with
      | some b => rw [hl] at h1; simp only [h1]
      | none => rfl
    cases hst2 : r2.state.store with
    | mk m2 k2 =>
      cases hst1 : r1.state.store with
      | mk m1 k1 =>
        rw [hst2, hst1] at hm hk
        simp only at hm hk
        rw [hm, hk]

theorem C9_witness :
    (InitVault (AcmeVault Store.client) [sampleSecret] ⟨true, false⟩ []
        ⟨(InitVault (AcmeVault Store.client) [sampleSecret] ⟨true, false⟩ []
          ⟨emptyStore, []⟩).state.store, []⟩).calls.filter VCall.isCreate = [] :=
  (C9_second_run_changes_nothing [sampleSecret] ⟨true, false⟩ [] emptyStore
    (Or.inl rfl)).2.2.1

end Vault
